import Mathlib

/-!
Verification development for the TikTok batch-downloader bot (src/bot.py).

The embedding covers the parts of the program the claims are about:

* the link-derived item fields (`video_id`, `extract_username`, bot.py
  lines 303-305),
* the persistent ledger (`DatabaseManager`: `mark_as_downloaded`,
  `is_already_downloaded`, bot.py lines 110-133),
* the retried single-item protocol (`download_single_video` under
  tenacity's `@retry(stop=stop_after_attempt(2),
  wait=wait_exponential(multiplier=1, min=2, max=5))`, bot.py lines 208-251),
* the batch orchestrator (`download_videos`, bot.py lines 284-351),
* the profile enumeration loop (`scrape_user`, bot.py lines 253-282).

Strings are manipulated through their character lists, so that Python's
`split` can be given an exact executable model.
-/

namespace Bot

/-! ### Generic list helpers -/

theorem takeWhile_all {α : Type} (p : α → Bool) (l : List α)
    (h : ∀ x ∈ l, p x = true) : l.takeWhile p = l := by
  induction l with
  | nil => rfl
  | cons a l ih =>
      have ha := h a (by simp)
      simp [List.takeWhile_cons, ha, ih (fun x hx => h x (by simp [hx]))]

theorem takeWhile_append_all {α : Type} (p : α → Bool) (l₁ l₂ : List α)
    (h : ∀ x ∈ l₁, p x = true) :
    (l₁ ++ l₂).takeWhile p = l₁ ++ l₂.takeWhile p := by
  induction l₁ with
  | nil => simp
  | cons a l ih =>
      have ha := h a (by simp)
      simp [List.takeWhile_cons, ha, ih (fun x hx => h x (by simp [hx]))]

theorem takeWhile_append_not_all {α : Type} (p : α → Bool) (l₁ l₂ : List α)
    (h : ¬ ∀ x ∈ l₁, p x = true) :
    (l₁ ++ l₂).takeWhile p = l₁.takeWhile p := by
  induction l₁ with
  | nil => exact absurd (by intro x hx; cases hx) h
  | cons a l ih =>
      by_cases ha : p a = true
      · have hl : ¬ ∀ x ∈ l, p x = true := by
          intro hall
          exact h (by
            intro x hx
            rcases List.mem_cons.mp hx with h1 | h2
            · subst h1; exact ha
            · exact hall x h2)
        simp [List.takeWhile_cons, ha, ih hl]
      · have ha' : p a = false := by
          cases hpa : p a
          · rfl
          · exact absurd hpa ha
        simp [List.takeWhile_cons, ha']

theorem getD_zero_eq_headD {α : Type} (xs : List α) (d : α) :
    xs.getD 0 d = xs.headD d := by
  cases xs <;> rfl

theorem getLastD_cons_cons {α : Type} (a b : α) (l : List α) (d : α) :
    (a :: b :: l).getLastD d = (b :: l).getLastD d := by
  simp [List.getLastD_cons]

/-! ### Python `split` on character lists -/

/-- Python `str.split(sep)` for a one-character separator, on the char-list
representation of a string.  `bot.py` uses `split('/')`, `split('?')` and
`split('@')` (lines 303, 305) and `href.split("?")` (line 271).
Python returns `['']` on the empty string and keeps empty fragments, which
this definition reproduces. -/
def pySplit (sep : Char) : List Char → List (List Char)
  | [] => [[]]
  | c :: rest =>
      if c = sep then [] :: pySplit sep rest
      else
        match pySplit sep rest with
        | [] => [[c]]
        | h :: t => (c :: h) :: t

theorem pySplit_ne_nil (sep : Char) (l : List Char) : pySplit sep l ≠ [] := by
  induction l with
  | nil => simp [pySplit]
  | cons c rest ih =>
      simp only [pySplit]
      by_cases h : c = sep
      · simp [h]
      · simp only [if_neg h]
        cases hr : pySplit sep rest with
        | nil => simp
        | cons a t => simp

/-- When the separator does not occur, Python's split returns the whole
string as the single fragment. -/
theorem pySplit_nosep (sep : Char) (l : List Char) (h : sep ∉ l) :
    pySplit sep l = [l] := by
  induction l with
  | nil => rfl
  | cons c rest ih =>
      have hc : ¬ c = sep := by
        intro hceq
        exact h (by simp [hceq])
      have hrest : sep ∉ rest := by
        intro hmem
        exact h (List.mem_cons_of_mem _ hmem)
      simp only [pySplit, if_neg hc, ih hrest]

/-- `split(sep)[0]` is the prefix of the string up to the first separator. -/
theorem pySplit_headD (sep : Char) (l : List Char) :
    (pySplit sep l).headD [] = l.takeWhile (fun c => !(c == sep)) := by
  induction l with
  | nil => simp [pySplit]
  | cons c rest ih =>
      by_cases h : c = sep
      · subst h
        simp [pySplit, List.takeWhile_cons]
      · have hb : (c == sep) = false := by
          simp [h]
        simp only [pySplit, if_neg h]
        cases hr : pySplit sep rest with
        | nil => exact absurd hr (pySplit_ne_nil sep rest)
        | cons a t =>
            rw [hr] at ih
            simp only [List.headD] at ih
            simp [List.takeWhile_cons, hb, ih]

/-- A string containing the separator splits into at least two fragments. -/
theorem two_le_length_pySplit (sep : Char) (l : List Char) (h : sep ∈ l) :
    2 ≤ (pySplit sep l).length := by
  induction l with
  | nil => cases h
  | cons c rest ih =>
      by_cases hc : c = sep
      · subst hc
        have hne := pySplit_ne_nil c rest
        have h1 : 1 ≤ (pySplit c rest).length := by
          cases hr : pySplit c rest with
          | nil => exact absurd hr hne
          | cons a t => simp
        have hx : pySplit c (c :: rest) = [] :: pySplit c rest := by
          simp [pySplit]
        rw [hx, List.length_cons]
        omega
      · have hrest : sep ∈ rest := by
          cases h with
          | head => exact absurd rfl hc
          | tail _ h => exact h
        simp only [pySplit, if_neg hc]
        cases hr : pySplit sep rest with
        | nil => exact absurd hr (pySplit_ne_nil sep rest)
        | cons a t =>
            have := ih hrest
            rw [hr] at this
            simpa using this

/-- `split(sep)[1]`, when the separator occurs: the fragment strictly between
the first separator and the next one (to the end if there is no next one). -/
theorem pySplit_getD_one (sep : Char) (l : List Char) (h : sep ∈ l) :
    (pySplit sep l).getD 1 [] =
      ((l.dropWhile (fun c => !(c == sep))).tail).takeWhile (fun c => !(c == sep)) := by
  induction l with
  | nil => cases h
  | cons c rest ih =>
      by_cases hc : c = sep
      · subst hc
        have hdrop : (c :: rest).dropWhile (fun x => !(x == c)) = c :: rest := by
          simp [List.dropWhile_cons]
        rw [hdrop]
        simp only [List.tail_cons]
        have hx : pySplit c (c :: rest) = [] :: pySplit c rest := by
          simp [pySplit]
        rw [hx]
        have hgd : ([] :: pySplit c rest).getD 1 [] = (pySplit c rest).getD 0 [] := rfl
        rw [hgd, getD_zero_eq_headD, pySplit_headD]
      · have hb : (c == sep) = false := by simp [hc]
        have hrest : sep ∈ rest := by
          cases h with
          | head => exact absurd rfl hc
          | tail _ h => exact h
        have hdrop : (c :: rest).dropWhile (fun x => !(x == sep)) =
            rest.dropWhile (fun x => !(x == sep)) := by
          simp [List.dropWhile_cons, hb]
        rw [hdrop]
        simp only [pySplit, if_neg hc]
        cases hr : pySplit sep rest with
        | nil => exact absurd hr (pySplit_ne_nil sep rest)
        | cons a t =>
            have hih := ih hrest
            rw [hr] at hih
            have hlen := two_le_length_pySplit sep rest hrest
            rw [hr] at hlen
            simp only [List.length_cons] at hlen
            cases t with
            | nil => simp at hlen
            | cons b t' =>
                have e1 : ((c :: a) :: b :: t').getD 1 [] = b := rfl
                have e2 : (a :: b :: t').getD 1 [] = b := rfl
                rw [e1]
                rw [e2] at hih
                exact hih

/-- `split(sep)[-1]` is the suffix of the string after the last separator. -/
theorem pySplit_getLastD (sep : Char) (l : List Char) :
    (pySplit sep l).getLastD [] =
      (l.reverse.takeWhile (fun c => !(c == sep))).reverse := by
  induction l with
  | nil => simp [pySplit]
  | cons c rest ih =>
      have hrev : (c :: rest).reverse = rest.reverse ++ [c] := by simp
      rw [hrev]
      by_cases hmem : sep ∈ rest
      · -- the last separator is inside `rest`, so both sides ignore `c`
        have hnotall : ¬ ∀ x ∈ rest.reverse, (fun c => !(c == sep)) x = true := by
          intro hall
          have := hall sep (by simpa using hmem)
          simp at this
        rw [takeWhile_append_not_all _ _ _ hnotall, ← ih]
        by_cases hc : c = sep
        · subst hc
          simp only [pySplit, if_pos rfl]
          cases hr : pySplit c rest with
          | nil => exact absurd hr (pySplit_ne_nil c rest)
          | cons a t => simp [List.getLastD_cons]
        · simp only [pySplit, if_neg hc]
          cases hr : pySplit sep rest with
          | nil => exact absurd hr (pySplit_ne_nil sep rest)
          | cons a t =>
              have hlen := two_le_length_pySplit sep rest hmem
              rw [hr] at hlen
              simp only [List.length_cons] at hlen
              cases t with
              | nil => simp at hlen
              | cons b t' =>
                  rw [getLastD_cons_cons, getLastD_cons_cons]
      · -- no separator in `rest`
        have hall : ∀ x ∈ rest.reverse, (fun c => !(c == sep)) x = true := by
          intro x hx
          have hxr : x ∈ rest := by simpa using hx
          have : ¬ x = sep := by
            intro hxe
            exact hmem (hxe ▸ hxr)
          simp [this]
        have hsplit_rest : pySplit sep rest = [rest] := pySplit_nosep sep rest hmem
        by_cases hc : c = sep
        · subst hc
          have hcb : (c == c) = true := by simp
          rw [takeWhile_append_all _ _ _ hall]
          simp only [pySplit, if_pos rfl, hsplit_rest]
          simp [List.takeWhile_cons, List.getLastD_cons]
        · have hcb : (c == sep) = false := by simp [hc]
          rw [takeWhile_append_all _ _ _ hall]
          simp only [pySplit, if_neg hc, hsplit_rest]
          simp [List.takeWhile_cons, hcb, List.getLastD_cons]

theorem takeWhile_and {α : Type} (p q : α → Bool) (l : List α) :
    (l.takeWhile p).takeWhile q = l.takeWhile (fun a => p a && q a) := by
  induction l with
  | nil => rfl
  | cons a l ih =>
      cases hp : p a with
      | true =>
          cases hq : q a with
          | true => simp [List.takeWhile_cons, hp, hq, ih]
          | false => simp [List.takeWhile_cons, hp, hq]
      | false => simp [List.takeWhile_cons, hp]

/-! ### Item fields derived from the link (bot.py lines 303-305) -/

/-- bot.py line 303: `video_id = link.split('/')[-1].split('?')[0]`. -/
def video_id (link : String) : String :=
  String.mk ((pySplit '?' ((pySplit '/' link.toList).getLastD [])).headD [])

/-- Python's substring test `needle in hay` on char lists. -/
def hasInfix (needle : List Char) : List Char → Bool
  | [] => needle.isPrefixOf []
  | c :: rest => needle.isPrefixOf (c :: rest) || hasInfix needle rest

/-- bot.py line 304: `is_photo = "/photo/" in link`. -/
def is_photo (link : String) : Bool :=
  hasInfix "/photo/".toList link.toList

/-- bot.py line 305:
`username = link.split('@')[1].split('/')[0] if '@' in link else "user"`. -/
def extract_username (link : String) : String :=
  let cs := link.toList
  if cs.contains '@' then
    String.mk ((pySplit '/' ((pySplit '@' cs).getD 1 [])).headD [])
  else "user"

/-- The owner as claim C9 reads it: the substring between the first `'@'` of
the link and the following `'/'`. -/
def owner_between_at_slash (link : String) : String :=
  String.mk (((link.toList.dropWhile (fun c => !(c == '@'))).tail).takeWhile
    (fun c => !(c == '/')))

/-! ### Ledger (DatabaseManager, bot.py lines 79-159)

The `downloads` table has `video_id TEXT UNIQUE` and is written with
`INSERT OR REPLACE` keyed on `video_id`, so it is modelled as an association
list keyed by `video_id` with insert-or-replace semantics.  Every sqlite call
sits in a `try`/`except`; the `storageOk` flag says whether the storage layer
succeeds for the call being modelled. -/

structure DLRecord where
  username : String
  url : String
  status : String
  filePath : String
deriving DecidableEq

abbrev Ledger := List (String × DLRecord)

def lookupRec : Ledger → String → Option DLRecord
  | [], _ => none
  | (k, r) :: rest, vid => if k = vid then some r else lookupRec rest vid

def insertOrReplace (db : Ledger) (vid : String) (r : DLRecord) : Ledger :=
  (vid, r) :: db.filter (fun p => !(p.1 == vid))

/-- bot.py lines 110-122: `INSERT OR REPLACE INTO downloads ...`; a storage
error is logged and swallowed, leaving the ledger unchanged. -/
def mark_as_downloaded (storageOk : Bool) (db : Ledger)
    (vid username url status filePath : String) : Ledger :=
  if storageOk then insertOrReplace db vid ⟨username, url, status, filePath⟩ else db

/-- bot.py lines 124-133: `SELECT * FROM downloads WHERE video_id = ? AND
status = "success"`, non-empty iff the unique row for `video_id` has status
success; the bare `except: return False` maps any storage error to `false`. -/
def is_already_downloaded (storageOk : Bool) (db : Ledger) (vid : String) : Bool :=
  if storageOk then
    match lookupRec db vid with
    | some r => r.status == "success"
    | none => false
  else false

theorem lookupRec_insertOrReplace_self (db : Ledger) (vid : String) (r : DLRecord) :
    lookupRec (insertOrReplace db vid r) vid = some r := by
  simp [insertOrReplace, lookupRec]

/-- C8: `is_already_downloaded` is true iff a record with status `success`
exists for the id, and returns false (rather than raising) on storage error. -/
theorem is_already_downloaded_spec (db : Ledger) (vid : String) :
    (is_already_downloaded true db vid = true ↔
      ∃ r, lookupRec db vid = some r ∧ r.status = "success") ∧
    is_already_downloaded false db vid = false := by
  constructor
  · unfold is_already_downloaded
    cases h : lookupRec db vid with
    | none => simp [h]
    | some r => simp [h]
  · rfl

/-- C9 (amended): without `'@'` the owner is the literal `"user"`; with `'@'`
it is the substring after the first `'@'` truncated at the next `'@'` or `'/'`,
whichever comes first (to the end of the link if neither occurs). -/
theorem extract_username_spec (link : String) :
    (link.toList.contains '@' = false → extract_username link = "user") ∧
    (link.toList.contains '@' = true →
      extract_username link =
        String.mk (((link.toList.dropWhile (fun c => !(c == '@'))).tail).takeWhile
          (fun c => !(c == '@') && !(c == '/')))) := by
  constructor
  · intro h
    have hneg : ¬ (link.toList.contains '@' = true) := by
      intro hc
      rw [h] at hc
      exact Bool.false_ne_true hc
    unfold extract_username
    rw [if_neg hneg]
  · intro h
    have hmem : '@' ∈ link.toList := by simpa using h
    simp only [extract_username, h, if_true]
    rw [pySplit_headD, pySplit_getD_one '@' link.toList hmem, takeWhile_and]

/-- C9 counterexample: on a link with a second `'@'` before the `'/'`, the code
truncates the owner at the second `'@'`, not at the `'/'` as the claim states. -/
theorem extract_username_cex :
    extract_username "https://www.tiktok.com/@a@b/video/7" = "a" ∧
    owner_between_at_slash "https://www.tiktok.com/@a@b/video/7" = "a@b" ∧
    extract_username "https://www.tiktok.com/@a@b/video/7" ≠
      owner_between_at_slash "https://www.tiktok.com/@a@b/video/7" := by
  refine ⟨by decide, by decide, by decide⟩

/-- C9 witness: the amended characterisation evaluated on a concrete link. -/
theorem extract_username_spec_witness :
    "https://www.tiktok.com/@ab/video/9".toList.contains '@' = true ∧
    extract_username "https://www.tiktok.com/@ab/video/9" =
      String.mk ((("https://www.tiktok.com/@ab/video/9".toList.dropWhile
        (fun c => !(c == '@'))).tail).takeWhile
          (fun c => !(c == '@') && !(c == '/'))) :=
  ⟨by decide, (extract_username_spec "https://www.tiktok.com/@ab/video/9").2 (by decide)⟩

/-- C10: the item id is the last `'/'`-separated segment of the link with the
query string stripped; two distinct links ending in `'/'` share the id `""`,
and the ledger's insert-or-replace keyed on the id treats them as the same
item both for the dedup skip and for outcome recording. -/
theorem video_id_spec :
    (∀ link : String,
      video_id link = String.mk
        (((link.toList.reverse.takeWhile (fun c => !(c == '/'))).reverse).takeWhile
          (fun c => !(c == '?')))) ∧
    ("https://tiktok.com/a/" ≠ "https://tiktok.com/b/" ∧
      video_id "https://tiktok.com/a/" = "" ∧
      video_id "https://tiktok.com/b/" = "") ∧
    (∀ (db : Ledger) (u₁ u₂ f₁ f₂ : String),
      is_already_downloaded true
        (mark_as_downloaded true db (video_id "https://tiktok.com/a/")
          u₁ "https://tiktok.com/a/" "success" f₁)
        (video_id "https://tiktok.com/b/") = true ∧
      lookupRec
        (mark_as_downloaded true
          (mark_as_downloaded true db (video_id "https://tiktok.com/a/")
            u₁ "https://tiktok.com/a/" "success" f₁)
          (video_id "https://tiktok.com/b/") u₂ "https://tiktok.com/b/" "failed" f₂)
        (video_id "https://tiktok.com/a/") = some ⟨u₂, "https://tiktok.com/b/", "failed", f₂⟩) := by
  refine ⟨?_, ⟨by decide, by decide, by decide⟩, ?_⟩
  · intro link
    unfold video_id
    rw [pySplit_headD, pySplit_getLastD]
  · intro db u₁ u₂ f₁ f₂
    have hva : video_id "https://tiktok.com/a/" = "" := by decide
    have hvb : video_id "https://tiktok.com/b/" = "" := by decide
    rw [hva, hvb]
    constructor
    · simp [mark_as_downloaded, is_already_downloaded, lookupRec_insertOrReplace_self]
    · simp [mark_as_downloaded, lookupRec_insertOrReplace_self]

/-! ### Profile enumeration (scrape_user, bot.py lines 253-282)

The external DOM interaction is abstracted: `hrefs n` is the list of
`get_attribute("href")` values of the anchor elements the n-th iteration of
the scroll loop finds (`None` is possible), and `failAt = some n` means the
external interaction raises at iteration n (driver creation or navigation
failure is `failAt = some 0`).  The failure point is modelled at iteration
granularity: a failure after iteration n collected its links behaves like
`failAt = some (n+1)`.  `driver.quit()` in the `finally` is modelled as
non-raising. -/

structure ScrapeEnv where
  hrefs : Nat → List (Option String)
  failAt : Option Nat

/-- `href.split("?")[0]` (bot.py line 271). -/
def stripQuery (href : String) : String :=
  String.mk ((pySplit '?' href.toList).headD [])

/-- Lexicographic comparison of char lists (an arbitrary fixed total order
used only to pick the canonical enumeration of the modelled set). -/
def listLtChar : List Char → List Char → Bool
  | [], [] => false
  | [], _ :: _ => true
  | _ :: _, [] => false
  | c :: cs, d :: ds => if c < d then true else if d < c then false else listLtChar cs ds

/-- Sorted insertion used to model CPython's `set`. -/
def insertLt (x : String) : List String → List String
  | [] => [x]
  | y :: ys => if listLtChar x.toList y.toList then x :: y :: ys else y :: insertLt x ys

/-- One Python-set insertion (`found_links.add(x)`, bot.py line 271).
CPython's `set` is an unordered hash table: iterating it enumerates the
elements in an order determined by the table contents, not by insertion
history.  The model keeps the contents as a list sorted by `<`, which has
exactly that property: the enumeration is a function of the set's elements
alone. -/
def pySetAdd (s : List String) (x : String) : List String :=
  if x ∈ s then s else insertLt x s

/-- bot.py lines 267-271: collect every content-anchor href found in the
current DOM state, strip the query string, insert into `found_links`;
`if href:` skips `None` and empty values. -/
def collectLinks (s : List String) (elems : List (Option String)) : List String :=
  elems.foldl (fun acc h =>
    match h with
    | none => acc
    | some href => if href = "" then acc else pySetAdd acc (stripQuery href)) s

/-- The scroll-and-collect loop (bot.py lines 266-273); `none` models the
`except` path being taken because an interaction raised. -/
def scrapeGo (env : ScrapeEnv) : Nat → Nat → List String → Option (List String)
  | _, 0, s => some s
  | iter, rem + 1, s =>
      if env.failAt = some iter then none
      else scrapeGo env (iter + 1) rem (collectLinks s (env.hrefs iter))

/-- bot.py lines 257-258: the handle is normalised to the `@handle` form
before navigating to the profile page. -/
def normalizeHandle (username : String) : String :=
  if username.startsWith "@" then username else "@" ++ username

/-- bot.py lines 253-282: `scrape_user`.  On success it returns
`list(found_links)`; the `except` branch (lines 277-279) returns `[]`. -/
def scrape_user (env : ScrapeEnv) (scrollCount : Nat) (username : String) :
    List String :=
  match scrapeGo env 0 scrollCount [] with
  | some s => s
  | none => []

/-- The collection loop run without failure, used to state what was collected
up to a given iteration. -/
def collectRun (env : ScrapeEnv) : Nat → Nat → List String → List String
  | _, 0, s => s
  | iter, rem + 1, s => collectRun env (iter + 1) rem (collectLinks s (env.hrefs iter))

/-- Claim C3's reading of one collection step: distinct links kept in
first-seen order. -/
def collectLinksFirstSeen (acc : List String) (elems : List (Option String)) :
    List String :=
  elems.foldl (fun acc h =>
    match h with
    | none => acc
    | some href =>
        if href = "" then acc
        else if stripQuery href ∈ acc then acc else acc ++ [stripQuery href]) acc

def firstSeenGo (env : ScrapeEnv) : Nat → Nat → List String → List String
  | _, 0, acc => acc
  | iter, rem + 1, acc =>
      firstSeenGo env (iter + 1) rem (collectLinksFirstSeen acc (env.hrefs iter))

/-- Claim C3's reading of the whole result: the distinct collected links, in
the order each was first seen. -/
def scrape_user_first_seen (env : ScrapeEnv) (scrollCount : Nat) : List String :=
  firstSeenGo env 0 scrollCount []

theorem insertLt_perm (x : String) (s : List String) :
    (insertLt x s).Perm (x :: s) := by
  induction s with
  | nil => exact List.Perm.refl _
  | cons y ys ih =>
      by_cases h : listLtChar x.toList y.toList = true
      · simp only [insertLt, if_pos h]
        exact List.Perm.refl _
      · simp only [insertLt, if_neg h]
        exact (ih.cons y).trans (List.Perm.swap x y ys)

theorem collectLinks_perm (elems : List (Option String)) :
    ∀ (s acc : List String), s.Perm acc → s.Nodup →
      (collectLinks s elems).Perm (collectLinksFirstSeen acc elems) ∧
        (collectLinks s elems).Nodup := by
  induction elems with
  | nil => exact fun s acc hp hn => ⟨hp, hn⟩
  | cons h rest ih =>
      intro s acc hp hn
      cases h with
      | none => exact ih s acc hp hn
      | some href =>
          by_cases he : href = ""
          · simp only [collectLinks, collectLinksFirstSeen, List.foldl_cons, if_pos he]
            exact ih s acc hp hn
          · simp only [collectLinks, collectLinksFirstSeen, List.foldl_cons, if_neg he]
            by_cases hx : stripQuery href ∈ s
            · have hxacc : stripQuery href ∈ acc := hp.mem_iff.mp hx
              simp only [pySetAdd, if_pos hx, if_pos hxacc]
              exact ih s acc hp hn
            · have hxacc : stripQuery href ∉ acc := fun hmem => hx (hp.mem_iff.mpr hmem)
              simp only [pySetAdd, if_neg hx, if_neg hxacc]
              have hperm : (insertLt (stripQuery href) s).Perm
                  (acc ++ [stripQuery href]) := by
                refine (insertLt_perm _ s).trans ?_
                exact (hp.cons _).trans (List.perm_append_singleton _ acc).symm
              have hnodup : (insertLt (stripQuery href) s).Nodup :=
                ((insertLt_perm _ s).nodup_iff).mpr (List.nodup_cons.mpr ⟨hx, hn⟩)
              exact ih _ _ hperm hnodup

theorem scrapeGo_perm (env : ScrapeEnv) (h : env.failAt = none) :
    ∀ (rem iter : Nat) (s acc : List String), s.Perm acc → s.Nodup →
      ∃ out, scrapeGo env iter rem s = some out ∧
        out.Perm (firstSeenGo env iter rem acc) ∧ out.Nodup := by
  intro rem
  induction rem with
  | zero => exact fun iter s acc hp hn => ⟨s, rfl, hp, hn⟩
  | succ rem ih =>
      intro iter s acc hp hn
      have hcond : ¬ env.failAt = some iter := by rw [h]; simp
      simp only [scrapeGo, if_neg hcond, firstSeenGo]
      obtain ⟨hperm, hnodup⟩ := collectLinks_perm (env.hrefs iter) s acc hp hn
      exact ih (iter + 1) _ _ hperm hnodup

/-- C3 (amended): `scrape_user` returns the distinct collected links exactly
once each (same elements as the first-seen sequence), but in an order that is
a function of the set contents, not the first-seen order. -/
theorem scrape_user_amended (env : ScrapeEnv) (scrollCount : Nat)
    (username : String) (h : env.failAt = none) :
    (scrape_user env scrollCount username).Perm
      (scrape_user_first_seen env scrollCount) ∧
    (scrape_user env scrollCount username).Nodup := by
  obtain ⟨out, hgo, hperm, hnodup⟩ :=
    scrapeGo_perm env h scrollCount 0 [] [] (List.Perm.refl []) List.nodup_nil
  unfold scrape_user scrape_user_first_seen
  rw [hgo]
  exact ⟨hperm, hnodup⟩

/-- C3 witness: the amended theorem applied to a concrete DOM trace. -/
theorem scrape_user_amended_witness :
    (scrape_user ⟨fun _ => [some "b", some "a"], none⟩ 1 "user1").Perm
      (scrape_user_first_seen ⟨fun _ => [some "b", some "a"], none⟩ 1) ∧
    (scrape_user ⟨fun _ => [some "b", some "a"], none⟩ 1 "user1").Nodup :=
  scrape_user_amended ⟨fun _ => [some "b", some "a"], none⟩ 1 "user1" rfl

/-- C3 counterexample: a DOM trace where the links are first seen in the
order `b`, `a`, yet `list(found_links)` enumerates the set as `a`, `b`. -/
theorem scrape_user_cex :
    scrape_user ⟨fun _ => [some "b", some "a"], none⟩ 1 "user1" = ["a", "b"] ∧
    scrape_user_first_seen ⟨fun _ => [some "b", some "a"], none⟩ 1 = ["b", "a"] ∧
    scrape_user ⟨fun _ => [some "b", some "a"], none⟩ 1 "user1" ≠
      scrape_user_first_seen ⟨fun _ => [some "b", some "a"], none⟩ 1 := by
  refine ⟨by decide, by decide, by decide⟩

theorem scrapeGo_fail_none (env : ScrapeEnv) (n : Nat) (h : env.failAt = some n) :
    ∀ (rem iter : Nat) (s : List String), iter ≤ n → n < iter + rem →
      scrapeGo env iter rem s = none := by
  intro rem
  induction rem with
  | zero => intro iter s h1 h2; omega
  | succ rem ih =>
      intro iter s h1 h2
      by_cases hi : iter = n
      · subst hi
        simp [scrapeGo, h]
      · have hcond : ¬ env.failAt = some iter := by
          rw [h]
          intro hc
          exact hi (Option.some_injective _ hc).symm
        simp only [scrapeGo, if_neg hcond]
        exact ih (iter + 1) _ (by omega) (by omega)

/-- C4 (amended): when the enumeration fails at any point of the loop, the
`except` branch catches it and returns the empty list, discarding whatever
was collected so far. -/
theorem scrape_user_fail_empty (env : ScrapeEnv) (scrollCount : Nat)
    (username : String) (n : Nat) (h1 : env.failAt = some n)
    (h2 : n < scrollCount) : scrape_user env scrollCount username = [] := by
  unfold scrape_user
  rw [scrapeGo_fail_none env n h1 scrollCount 0 [] (Nat.zero_le n) (by omega)]

/-- C4 witness: the amended theorem applied to a concrete failing run. -/
theorem scrape_user_fail_empty_witness :
    scrape_user ⟨fun _ => [some "x"], some 1⟩ 2 "user1" = [] :=
  scrape_user_fail_empty ⟨fun _ => [some "x"], some 1⟩ 2 "user1" 1 rfl (by omega)

/-- C4 counterexample: a run failing at iteration 1 has already collected
`x`, but `scrape_user` returns `[]`, not the partial result. -/
theorem scrape_user_partial_cex :
    scrape_user ⟨fun _ => [some "x"], some 1⟩ 2 "user1" = [] ∧
    collectRun ⟨fun _ => [some "x"], some 1⟩ 0 1 [] = ["x"] ∧
    scrape_user ⟨fun _ => [some "x"], some 1⟩ 2 "user1" ≠
      collectRun ⟨fun _ => [some "x"], some 1⟩ 0 1 [] := by
  refine ⟨by decide, by decide, by decide⟩

/-! ### Batch orchestrator (download_videos, bot.py lines 284-351)

The orchestrator is embedded as a two-phase function mirroring the source's
structure (submission loop lines 300-319, `as_completed` tally loop lines
321-333, `finally` block lines 334-351):

* `Env` supplies the outcomes of the external interactions: whether each
  driver creation succeeds, whether each protocol attempt's verify step
  succeeds, and whether each sqlite call succeeds.
* Phase 1 walks the input list with its index: it computes the item fields,
  makes the skip check, and for submitted items runs the retried protocol on
  session `i % k`.  A submitted item's protocol (and so its ledger success
  write) is modelled as executing at its submission point; this fixes one
  schedule of the concurrent writes.
* Phase 2 (`as_completed`) processes the submitted records in the
  nondeterministic completion order, which is passed in as the `completed`
  parameter; the theorems constrain it to be a permutation of the submitted
  records.  The throttle sleep (line 319) has no observable effect here and
  is not modelled; `os.makedirs(..., exist_ok=True)` (line 307) is modelled
  as non-raising.
* If creating the m-th driver raises (line 295), the local `drivers` is never
  bound, so the `finally` block (line 335) raises `NameError`: no driver is
  closed, no final notification is sent and the call raises instead of
  returning — `returned := false` in the model.
* If `k = 0`, `ThreadPoolExecutor(max_workers=0)` (line 297) raises
  `ValueError`; `drivers` is the empty list, so the `finally` closes nothing,
  still sends the final summary, and its `return` swallows the exception.
* Otherwise the `finally` attempts `driver.quit()` on every pooled driver,
  each wrapped in `try ... except: pass`, so `closed` lists all `k` drivers
  whatever `quitOk` says, then sends the final summary iff `chat_id` is set
  and returns the aggregates. -/

/-- A Telegram notification, as attempted by `send_telegram_message`
(bot.py lines 202-206; send failures are logged and swallowed, so emission
is modelled as the attempt). -/
inductive Notif where
  | start (total : Nat)
  | progress (done total : Nat)
  | finalSummary (succ fail : Nat)
deriving DecidableEq

def isFinalSummary : Notif → Bool
  | Notif.finalSummary _ _ => true
  | _ => false

/-- Outcomes of the external world for one batch. -/
structure Env where
  createOk : Nat → Bool
  attemptOk : Nat → Nat → Bool
  readOk : Nat → Bool
  markSuccessOk : Nat → Bool
  markFailOk : Nat → Bool
  quitOk : Nat → Bool

/-- One protocol execution: item index, attempt number (1-based), session. -/
structure Inv where
  item : Nat
  attempt : Nat
  session : Nat
deriving DecidableEq

/-- One attempted ledger write (`mark_as_downloaded` call). -/
structure WriteRec where
  item : Nat
  vid : String
  username : String
  url : String
  status : String
deriving DecidableEq

/-- One submitted future, as keyed by the `futures` dict (bot.py line 317),
together with the outcome of its retried protocol. -/
structure SubmitRec where
  idx : Nat
  link : String
  username : String
  vid : String
  isPhoto : Bool
  ok : Bool
deriving DecidableEq

/-- What happened to the item at a given input position. -/
inductive ItemPhase where
  | skipped
  | ran (ok : Bool)
deriving DecidableEq

def succPhase : ItemPhase → Bool
  | ItemPhase.skipped => true
  | ItemPhase.ran b => b

/-- tenacity's `wait_exponential(multiplier, min, max)`: the wait after the
n-th failed attempt is `multiplier * 2^(n-1)` clamped into `[min, max]`. -/
def wait_exponential (multiplier mn mx attemptNumber : Nat) : Nat :=
  max mn (min (multiplier * 2 ^ (attemptNumber - 1)) mx)

/-- Result of one retried protocol execution. -/
structure ProtoResult where
  ok : Bool
  db : Ledger
  invs : List Inv
  delays : List (Nat × Nat)
  writes : List WriteRec

/-- bot.py lines 208-251: `download_single_video` under
`@retry(stop=stop_after_attempt(2), wait=wait_exponential(multiplier=1,
min=2, max=5))`.  Each attempt runs the snapshot-dispatch-submit-fetch-verify
sequence against the fixed session; the attempt's verify outcome is
`env.attemptOk i n`.  A successful verify records status success in the
ledger (line 244) and returns; a failed attempt raises, tenacity waits
`wait_exponential 1 2 5 1` units and reruns once, and after the second
failure the failure propagates (as `RetryError`) to the orchestrator. -/
def download_single_video (env : Env) (db : Ledger) (i sess : Nat)
    (link username vid : String) : ProtoResult :=
  if env.attemptOk i 1 then
    { ok := true,
      db := mark_as_downloaded (env.markSuccessOk i) db vid username link "success" "",
      invs := [⟨i, 1, sess⟩], delays := [],
      writes := [⟨i, vid, username, link, "success"⟩] }
  else if env.attemptOk i 2 then
    { ok := true,
      db := mark_as_downloaded (env.markSuccessOk i) db vid username link "success" "",
      invs := [⟨i, 1, sess⟩, ⟨i, 2, sess⟩],
      delays := [(i, wait_exponential 1 2 5 1)],
      writes := [⟨i, vid, username, link, "success"⟩] }
  else
    { ok := false, db := db,
      invs := [⟨i, 1, sess⟩, ⟨i, 2, sess⟩],
      delays := [(i, wait_exponential 1 2 5 1)], writes := [] }

structure Phase1St where
  db : Ledger
  skipped : Nat
  submitted : List SubmitRec
  invs : List Inv
  delays : List (Nat × Nat)
  writes : List WriteRec
  phases : List ItemPhase

/-- bot.py lines 300-319: the body of the submission loop for the item at
input index `i`. -/
def phase1Step (env : Env) (k : Nat) (st : Phase1St) (i : Nat) (link : String) :
    Phase1St :=
  let vid := video_id link
  let username := extract_username link
  if is_already_downloaded (env.readOk i) st.db vid then
    { st with
        skipped := st.skipped + 1,
        phases := st.phases ++ [ItemPhase.skipped] }
  else
    let r := download_single_video env st.db i (i % k) link username vid
    { db := r.db, skipped := st.skipped,
      submitted := st.submitted ++ [⟨i, link, username, vid, is_photo link, r.ok⟩],
      invs := st.invs ++ r.invs,
      delays := st.delays ++ r.delays,
      writes := st.writes ++ r.writes,
      phases := st.phases ++ [ItemPhase.ran r.ok] }

def phase1Go (env : Env) (k : Nat) : Nat → Phase1St → List String → Phase1St
  | _, st, [] => st
  | i, st, link :: rest => phase1Go env k (i + 1) (phase1Step env k st i link) rest

def phase1 (env : Env) (k : Nat) (db0 : Ledger) (links : List String) : Phase1St :=
  phase1Go env k 0 ⟨db0, 0, [], [], [], [], []⟩ links

structure Phase2St where
  success : Nat
  fail : Nat
  failedLinks : List String
  db : Ledger
  notifs : List Notif
  writes : List WriteRec

/-- bot.py lines 321-333: the body of the `as_completed` loop.  A success
increments `success_count` and emits a progress ping on every 5th success if
a chat is set; a failure increments `fail_count`, appends the link to
`failed_links` and records status failed under the recomputed id. -/
def phase2Step (env : Env) (chatId : Option Nat) (total : Nat) (st : Phase2St)
    (r : SubmitRec) : Phase2St :=
  if r.ok then
    let s := st.success + 1
    { st with
        success := s,
        notifs := st.notifs ++
          (if chatId.isSome && s % 5 == 0 then [Notif.progress s total] else []) }
  else
    { st with
        fail := st.fail + 1,
        failedLinks := st.failedLinks ++ [r.link],
        db := mark_as_downloaded (env.markFailOk r.idx) st.db (video_id r.link)
          r.username r.link "failed" "",
        writes := st.writes ++ [⟨r.idx, video_id r.link, r.username, r.link, "failed"⟩] }

/-- Observable outcome of one `download_videos` call. -/
structure BatchOut where
  returned : Bool
  success : Nat
  fail : Nat
  failedLinks : List String
  db : Ledger
  notifs : List Notif
  invs : List Inv
  delays : List (Nat × Nat)
  writes : List WriteRec
  phases : List ItemPhase
  created : Nat
  closed : List Nat

/-- Index of the first driver whose creation fails, if any (bot.py line 295
creates drivers in order and the first failure aborts the comprehension). -/
def firstCreateFail (env : Env) (k : Nat) : Option Nat :=
  (List.range k).find? (fun i => !(env.createOk i))

/-- bot.py lines 284-351: `download_videos(links, chat_id)` with pool size
`k` (`max_workers`), initial ledger `db0` and completion order `completed`.
See the section comment for the correspondence. -/
def download_videos (env : Env) (k : Nat) (db0 : Ledger) (links : List String)
    (chatId : Option Nat) (completed : List SubmitRec) : BatchOut :=
  let total := links.length
  let startNotifs : List Notif := if chatId.isSome then [Notif.start total] else []
  match firstCreateFail env k with
  | some m =>
      { returned := false, success := 0, fail := 0, failedLinks := [], db := db0,
        notifs := startNotifs, invs := [], delays := [], writes := [], phases := [],
        created := m, closed := [] }
  | none =>
      if k = 0 then
        { returned := true, success := 0, fail := 0, failedLinks := [], db := db0,
          notifs := startNotifs ++
            (if chatId.isSome then [Notif.finalSummary 0 0] else []),
          invs := [], delays := [], writes := [], phases := [],
          created := 0, closed := [] }
      else
        let p1 := phase1 env k db0 links
        let p2 := completed.foldl (phase2Step env chatId total)
          ⟨p1.skipped, 0, [], p1.db, [], []⟩
        { returned := true, success := p2.success, fail := p2.fail,
          failedLinks := p2.failedLinks, db := p2.db,
          notifs := startNotifs ++ p2.notifs ++
            (if chatId.isSome then [Notif.finalSummary p2.success p2.fail] else []),
          invs := p1.invs, delays := p1.delays, writes := p1.writes ++ p2.writes,
          phases := p1.phases, created := k, closed := List.range k }

/-! ### Supporting lemmas about the orchestrator -/

theorem download_single_video_fail (env : Env) (db : Ledger) (i s : Nat)
    (l u vid : String) (h1 : env.attemptOk i 1 = false)
    (h2 : env.attemptOk i 2 = false) :
    download_single_video env db i s l u vid =
      { ok := false, db := db, invs := [⟨i, 1, s⟩, ⟨i, 2, s⟩],
        delays := [(i, wait_exponential 1 2 5 1)], writes := [] } := by
  simp [download_single_video, h1, h2]

theorem download_single_video_shape (env : Env) (db : Ledger) (i s : Nat)
    (l u vid : String) :
    (∀ v ∈ (download_single_video env db i s l u vid).invs,
        v.item = i ∧ v.session = s) ∧
    (∀ d ∈ (download_single_video env db i s l u vid).delays, d.1 = i) ∧
    (∀ w ∈ (download_single_video env db i s l u vid).writes,
        w.item = i ∧ w.status = "success") ∧
    ((download_single_video env db i s l u vid).ok
        = (env.attemptOk i 1 || env.attemptOk i 2)) ∧
    ((download_single_video env db i s l u vid).db
        = if env.attemptOk i 1 || env.attemptOk i 2
          then mark_as_downloaded (env.markSuccessOk i) db vid u l "success" ""
          else db) := by
  by_cases h1 : env.attemptOk i 1 = true
  · refine ⟨?_, ?_, ?_, ?_, ?_⟩ <;> simp [download_single_video, h1]
  · have h1' : env.attemptOk i 1 = false := by
      cases h : env.attemptOk i 1
      · rfl
      · exact absurd h h1
    by_cases h2 : env.attemptOk i 2 = true
    · refine ⟨?_, ?_, ?_, ?_, ?_⟩ <;>
        simp [download_single_video, h1', h2] <;>
        intro hx <;> simp [hx]
    · have h2' : env.attemptOk i 2 = false := by
        cases h : env.attemptOk i 2
        · rfl
        · exact absurd h h2
      refine ⟨?_, ?_, ?_, ?_, ?_⟩ <;>
        simp [download_single_video, h1', h2'] <;>
        intro hx <;> simp [hx]

theorem lookupRec_filter_ne (db : Ledger) (vid id : String) (h : vid ≠ id) :
    lookupRec (db.filter (fun p => !(p.1 == vid))) id = lookupRec db id := by
  induction db with
  | nil => rfl
  | cons p rest ih =>
      obtain ⟨key, rec⟩ := p
      by_cases hk : key = vid
      · subst hk
        have hb : (key == key) = true := by simp
        have hki : ¬ key = id := h
        simp [List.filter_cons, hb, lookupRec, hki, ih]
      · have hb : (key == vid) = false := by simp [hk]
        by_cases hid : key = id
        · subst hid
          simp [List.filter_cons, hb, lookupRec]
        · simp [List.filter_cons, hb, lookupRec, hid, ih]

theorem lookupRec_mark_ne (ok : Bool) (db : Ledger) (vid id u l s f : String)
    (h : vid ≠ id) :
    lookupRec (mark_as_downloaded ok db vid u l s f) id = lookupRec db id := by
  cases ok with
  | false => rfl
  | true =>
      simp only [mark_as_downloaded, if_pos rfl, insertOrReplace]
      simp only [lookupRec, if_neg h]
      exact lookupRec_filter_ne db vid id h

theorem is_already_downloaded_of_lookup (db : Ledger) (id : String) (r : DLRecord)
    (hdb : lookupRec db id = some r) (hr : r.status = "success") :
    is_already_downloaded true db id = true := by
  simp [is_already_downloaded, hdb, hr]

/-! #### Phase 2 (as_completed loop) lemmas -/

theorem phase2Step_success (env : Env) (chatId : Option Nat) (total : Nat)
    (st : Phase2St) (r : SubmitRec) :
    (phase2Step env chatId total st r).success
      = st.success + (if r.ok then 1 else 0) := by
  by_cases hr : r.ok = true <;> simp [phase2Step, hr]

theorem phase2Step_fail (env : Env) (chatId : Option Nat) (total : Nat)
    (st : Phase2St) (r : SubmitRec) :
    (phase2Step env chatId total st r).fail
      = st.fail + (if r.ok then 0 else 1) := by
  by_cases hr : r.ok = true <;> simp [phase2Step, hr]

theorem phase2Step_notifs_final (env : Env) (chatId : Option Nat) (total : Nat)
    (st : Phase2St) (r : SubmitRec) :
    (phase2Step env chatId total st r).notifs.filter isFinalSummary
      = st.notifs.filter isFinalSummary := by
  by_cases hr : r.ok = true
  · cases hc : (chatId.isSome && (st.success + 1) % 5 == 0) <;>
      simp [phase2Step, hr, hc, List.filter_append, isFinalSummary]
  · simp [phase2Step, hr]

theorem phase2_foldl_spec (env : Env) (chatId : Option Nat) (total : Nat) :
    ∀ (completed : List SubmitRec) (st : Phase2St),
      ((completed.foldl (phase2Step env chatId total) st).success
          = st.success + completed.countP (fun r => r.ok)) ∧
      ((completed.foldl (phase2Step env chatId total) st).fail
          = st.fail + completed.countP (fun r => !r.ok)) ∧
      ((completed.foldl (phase2Step env chatId total) st).notifs.filter isFinalSummary
          = st.notifs.filter isFinalSummary) := by
  intro completed
  induction completed with
  | nil => intro st; simp
  | cons r rest ih =>
      intro st
      obtain ⟨h1, h2, h3⟩ := ih (phase2Step env chatId total st r)
      refine ⟨?_, ?_, ?_⟩
      · rw [List.foldl_cons, h1, phase2Step_success, List.countP_cons]
        by_cases hr : r.ok = true <;> simp [hr] <;> omega
      · rw [List.foldl_cons, h2, phase2Step_fail, List.countP_cons]
        by_cases hr : r.ok = true <;> simp [hr] <;> omega
      · rw [List.foldl_cons, h3, phase2Step_notifs_final]

theorem phase2_foldl_mono (env : Env) (chatId : Option Nat) (total : Nat) :
    ∀ (completed : List SubmitRec) (st : Phase2St) (x : String) (w : WriteRec),
      (x ∈ st.failedLinks →
        x ∈ (completed.foldl (phase2Step env chatId total) st).failedLinks) ∧
      (w ∈ st.writes →
        w ∈ (completed.foldl (phase2Step env chatId total) st).writes) := by
  intro completed
  induction completed with
  | nil => intro st x w; exact ⟨id, id⟩
  | cons r rest ih =>
      intro st x w
      obtain ⟨m1, m2⟩ := ih (phase2Step env chatId total st r) x w
      rw [List.foldl_cons]
      refine ⟨fun hx => m1 ?_, fun hw => m2 ?_⟩
      · by_cases hr : r.ok = true
        · simpa [phase2Step, hr] using hx
        · simp only [phase2Step, if_neg hr]
          exact List.mem_append.mpr (Or.inl hx)
      · by_cases hr : r.ok = true
        · simpa [phase2Step, hr] using hw
        · simp only [phase2Step, if_neg hr]
          exact List.mem_append.mpr (Or.inl hw)

theorem phase2_foldl_mem (env : Env) (chatId : Option Nat) (total : Nat) :
    ∀ (completed : List SubmitRec) (st : Phase2St) (r : SubmitRec),
      r ∈ completed → r.ok = false →
      r.link ∈ (completed.foldl (phase2Step env chatId total) st).failedLinks ∧
      (⟨r.idx, video_id r.link, r.username, r.link, "failed"⟩ : WriteRec)
        ∈ (completed.foldl (phase2Step env chatId total) st).writes := by
  intro completed
  induction completed with
  | nil => intro st r hmem; cases hmem
  | cons a rest ih =>
      intro st r hmem hok
      rw [List.foldl_cons]
      rcases List.mem_cons.mp hmem with heq | htail
      · subst heq
        have hr' : ¬ r.ok = true := by simp [hok]
        have h1 : r.link ∈ (phase2Step env chatId total st r).failedLinks := by
          simp [phase2Step, if_neg hr']
        have h2 : (⟨r.idx, video_id r.link, r.username, r.link, "failed"⟩ : WriteRec)
            ∈ (phase2Step env chatId total st r).writes := by
          simp [phase2Step, if_neg hr']
        obtain ⟨m1, m2⟩ := phase2_foldl_mono env chatId total rest
          (phase2Step env chatId total st r) r.link
          ⟨r.idx, video_id r.link, r.username, r.link, "failed"⟩
        exact ⟨m1 h1, m2 h2⟩
      · exact ih (phase2Step env chatId total st a) r htail hok

theorem phase2_writes_char (env : Env) (chatId : Option Nat) (total : Nat) :
    ∀ (completed : List SubmitRec) (st : Phase2St) (w : WriteRec),
      w ∈ (completed.foldl (phase2Step env chatId total) st).writes →
      w ∈ st.writes ∨ ∃ r, r ∈ completed ∧ r.ok = false ∧
        w = ⟨r.idx, video_id r.link, r.username, r.link, "failed"⟩ := by
  intro completed
  induction completed with
  | nil => intro st w hw; exact Or.inl hw
  | cons a rest ih =>
      intro st w hw
      rw [List.foldl_cons] at hw
      rcases ih (phase2Step env chatId total st a) w hw with hin | ⟨r, hr1, hr2, hr3⟩
      · by_cases ha : a.ok = true
        · left
          simpa [phase2Step, ha] using hin
        · have ha' : a.ok = false := by
            cases h : a.ok
            · rfl
            · exact absurd h ha
          have : w ∈ st.writes ∨
              w = ⟨a.idx, video_id a.link, a.username, a.link, "failed"⟩ := by
            simpa [phase2Step, if_neg ha, List.mem_append] using hin
          rcases this with h | h
          · exact Or.inl h
          · exact Or.inr ⟨a, by simp, ha', h⟩
      · exact Or.inr ⟨r, List.mem_cons_of_mem _ hr1, hr2, hr3⟩

/-! #### Phase 1 (submission loop) lemmas -/

theorem phase1Step_phases_len (env : Env) (k : Nat) (st : Phase1St) (i : Nat)
    (link : String) :
    (phase1Step env k st i link).phases.length = st.phases.length + 1 := by
  by_cases hskip :
      is_already_downloaded (env.readOk i) st.db (video_id link) = true
  · simp [phase1Step, hskip]
  · have hskip' : is_already_downloaded (env.readOk i) st.db (video_id link) = false := by
      cases h : is_already_downloaded (env.readOk i) st.db (video_id link)
      · rfl
      · exact absurd h hskip
    simp [phase1Step, hskip']

theorem phase1Go_counts (env : Env) (k : Nat) :
    ∀ (links : List String) (i : Nat) (st : Phase1St),
      ((phase1Go env k i st links).skipped + (phase1Go env k i st links).submitted.length
          = st.skipped + st.submitted.length + links.length) ∧
      ((phase1Go env k i st links).phases.length = st.phases.length + links.length) ∧
      ((phase1Go env k i st links).skipped
          + (phase1Go env k i st links).submitted.countP (fun r => r.ok)
          + st.phases.countP succPhase
        = st.skipped + st.submitted.countP (fun r => r.ok)
          + (phase1Go env k i st links).phases.countP succPhase) := by
  intro links
  induction links with
  | nil => intro i st; simp [phase1Go]
  | cons link rest ih =>
      intro i st
      obtain ⟨h1, h2, h3⟩ := ih (i + 1) (phase1Step env k st i link)
      have hgo : phase1Go env k i st (link :: rest)
          = phase1Go env k (i + 1) (phase1Step env k st i link) rest := rfl
      rw [hgo]
      by_cases hskip :
          is_already_downloaded (env.readOk i) st.db (video_id link) = true
      · have e1 : (phase1Step env k st i link).skipped = st.skipped + 1 := by
          simp [phase1Step, hskip]
        have e2 : (phase1Step env k st i link).submitted = st.submitted := by
          simp [phase1Step, hskip]
        have e3 : (phase1Step env k st i link).phases
            = st.phases ++ [ItemPhase.skipped] := by
          simp [phase1Step, hskip]
        simp only [e1, e2, e3] at h1 h2 h3
        have c1 : List.countP succPhase [ItemPhase.skipped] = 1 := by decide
        simp only [List.countP_append, List.length_append, c1, List.length_cons,
          List.length_nil] at h1 h2 h3 ⊢
        refine ⟨by omega, by omega, by omega⟩
      · have hskip' :
            is_already_downloaded (env.readOk i) st.db (video_id link) = false := by
          cases h : is_already_downloaded (env.readOk i) st.db (video_id link)
          · rfl
          · exact absurd h hskip
        cases hok : (download_single_video env st.db i (i % k) link
            (extract_username link) (video_id link)).ok with
        | true =>
            have e1 : (phase1Step env k st i link).skipped = st.skipped := by
              simp [phase1Step, hskip']
            have e2 : (phase1Step env k st i link).submitted
                = st.submitted ++ [⟨i, link, extract_username link, video_id link,
                    is_photo link, true⟩] := by
              simp [phase1Step, hskip', hok]
            have e3 : (phase1Step env k st i link).phases
                = st.phases ++ [ItemPhase.ran true] := by
              simp [phase1Step, hskip', hok]
            simp only [e1, e2, e3] at h1 h2 h3
            have c1 : List.countP succPhase [ItemPhase.ran true] = 1 := by decide
            have c2 : List.countP (fun r => r.ok)
                [(⟨i, link, extract_username link, video_id link,
                  is_photo link, true⟩ : SubmitRec)] = 1 := by simp
            simp only [List.countP_append, List.length_append, c1, c2,
              List.length_cons, List.length_nil] at h1 h2 h3 ⊢
            refine ⟨by omega, by omega, by omega⟩
        | false =>
            have e1 : (phase1Step env k st i link).skipped = st.skipped := by
              simp [phase1Step, hskip']
            have e2 : (phase1Step env k st i link).submitted
                = st.submitted ++ [⟨i, link, extract_username link, video_id link,
                    is_photo link, false⟩] := by
              simp [phase1Step, hskip', hok]
            have e3 : (phase1Step env k st i link).phases
                = st.phases ++ [ItemPhase.ran false] := by
              simp [phase1Step, hskip', hok]
            simp only [e1, e2, e3] at h1 h2 h3
            have c1 : List.countP succPhase [ItemPhase.ran false] = 0 := by decide
            have c2 : List.countP (fun r => r.ok)
                [(⟨i, link, extract_username link, video_id link,
                  is_photo link, false⟩ : SubmitRec)] = 0 := by simp
            simp only [List.countP_append, List.length_append, c1, c2,
              List.length_cons, List.length_nil] at h1 h2 h3 ⊢
            refine ⟨by omega, by omega, by omega⟩

theorem filter_eq_nil_of_all {α : Type} (p : α → Bool) (l : List α)
    (h : ∀ x ∈ l, p x = false) : l.filter p = [] := by
  induction l with
  | nil => rfl
  | cons a t ih =>
      have ha := h a (by simp)
      simp [List.filter_cons, ha, ih (fun x hx => h x (by simp [hx]))]

theorem nat_beq_false {a b : Nat} (h : a ≠ b) : (a == b) = false := by
  simp [h]

theorem phase1Step_untouched (env : Env) (k : Nat) (st : Phase1St) (i : Nat)
    (link : String) (j n : Nat) (hj : j ≠ i) (hn : n < st.phases.length) :
    ((phase1Step env k st i link).invs.filter (fun v => v.item == j)
        = st.invs.filter (fun v => v.item == j)) ∧
    ((phase1Step env k st i link).delays.filter (fun d => d.1 == j)
        = st.delays.filter (fun d => d.1 == j)) ∧
    ((phase1Step env k st i link).submitted.filter (fun r => r.idx == j)
        = st.submitted.filter (fun r => r.idx == j)) ∧
    ((phase1Step env k st i link).phases.get? n = st.phases.get? n) := by
  have hij : (i == j) = false := nat_beq_false (Ne.symm hj)
  by_cases hskip :
      is_already_downloaded (env.readOk i) st.db (video_id link) = true
  · have e1 : (phase1Step env k st i link).invs = st.invs := by
      simp [phase1Step, hskip]
    have e2 : (phase1Step env k st i link).delays = st.delays := by
      simp [phase1Step, hskip]
    have e3 : (phase1Step env k st i link).submitted = st.submitted := by
      simp [phase1Step, hskip]
    have e4 : (phase1Step env k st i link).phases
        = st.phases ++ [ItemPhase.skipped] := by
      simp [phase1Step, hskip]
    rw [e1, e2, e3, e4]
    exact ⟨rfl, rfl, rfl, List.get?_append hn⟩
  · have hskip' :
        is_already_downloaded (env.readOk i) st.db (video_id link) = false := by
      cases h : is_already_downloaded (env.readOk i) st.db (video_id link)
      · rfl
      · exact absurd h hskip
    obtain ⟨sh1, sh2, _, _, _⟩ := download_single_video_shape env st.db i (i % k)
      link (extract_username link) (video_id link)
    have e1 : (phase1Step env k st i link).invs
        = st.invs ++ (download_single_video env st.db i (i % k) link
            (extract_username link) (video_id link)).invs := by
      simp [phase1Step, hskip']
    have e2 : (phase1Step env k st i link).delays
        = st.delays ++ (download_single_video env st.db i (i % k) link
            (extract_username link) (video_id link)).delays := by
      simp [phase1Step, hskip']
    have e3 : (phase1Step env k st i link).submitted
        = st.submitted ++ [⟨i, link, extract_username link, video_id link,
            is_photo link, (download_single_video env st.db i (i % k) link
              (extract_username link) (video_id link)).ok⟩] := by
      simp [phase1Step, hskip']
    have e4 : (phase1Step env k st i link).phases
        = st.phases ++ [ItemPhase.ran ((download_single_video env st.db i (i % k)
            link (extract_username link) (video_id link)).ok)] := by
      simp [phase1Step, hskip']
    rw [e1, e2, e3, e4]
    refine ⟨?_, ?_, ?_, List.get?_append hn⟩
    · have hnil : ((download_single_video env st.db i (i % k) link
          (extract_username link) (video_id link)).invs).filter
            (fun v => v.item == j) = [] :=
        filter_eq_nil_of_all _ _ (fun v hv => by rw [(sh1 v hv).1]; exact hij)
      rw [List.filter_append, hnil, List.append_nil]
    · have hnil : ((download_single_video env st.db i (i % k) link
          (extract_username link) (video_id link)).delays).filter
            (fun d => d.1 == j) = [] :=
        filter_eq_nil_of_all _ _ (fun d hd => by rw [sh2 d hd]; exact hij)
      rw [List.filter_append, hnil, List.append_nil]
    · have hnil : ([(⟨i, link, extract_username link, video_id link,
          is_photo link, (download_single_video env st.db i (i % k) link
            (extract_username link) (video_id link)).ok⟩ : SubmitRec)]).filter
            (fun r => r.idx == j) = [] :=
        filter_eq_nil_of_all _ _ (fun r hrr => by
          rcases List.mem_singleton.mp hrr with rfl
          simpa using hij)
      rw [List.filter_append, hnil, List.append_nil]

theorem phase1Go_untouched (env : Env) (k : Nat) :
    ∀ (links : List String) (i : Nat) (st : Phase1St) (j n : Nat),
      j < i → n < st.phases.length →
      ((phase1Go env k i st links).invs.filter (fun v => v.item == j)
          = st.invs.filter (fun v => v.item == j)) ∧
      ((phase1Go env k i st links).delays.filter (fun d => d.1 == j)
          = st.delays.filter (fun d => d.1 == j)) ∧
      ((phase1Go env k i st links).submitted.filter (fun r => r.idx == j)
          = st.submitted.filter (fun r => r.idx == j)) ∧
      ((phase1Go env k i st links).phases.get? n = st.phases.get? n) := by
  intro links
  induction links with
  | nil => intro i st j n hj hn; exact ⟨rfl, rfl, rfl, rfl⟩
  | cons link rest ih =>
      intro i st j n hj hn
      have hgo : phase1Go env k i st (link :: rest)
          = phase1Go env k (i + 1) (phase1Step env k st i link) rest := rfl
      rw [hgo]
      have hn' : n < (phase1Step env k st i link).phases.length := by
        rw [phase1Step_phases_len]
        omega
      obtain ⟨u1, u2, u3, u4⟩ :=
        ih (i + 1) (phase1Step env k st i link) j n (by omega) hn'
      obtain ⟨s1, s2, s3, s4⟩ :=
        phase1Step_untouched env k st i link j n (by omega) hn
      exact ⟨u1.trans s1, u2.trans s2, u3.trans s3, u4.trans s4⟩

theorem phase1Step_submitted_mono (env : Env) (k : Nat) (st : Phase1St) (i : Nat)
    (link : String) (r : SubmitRec) (h : r ∈ st.submitted) :
    r ∈ (phase1Step env k st i link).submitted := by
  by_cases hskip :
      is_already_downloaded (env.readOk i) st.db (video_id link) = true
  · have e : (phase1Step env k st i link).submitted = st.submitted := by
      simp [phase1Step, hskip]
    rw [e]
    exact h
  · have hskip' :
        is_already_downloaded (env.readOk i) st.db (video_id link) = false := by
      cases hx : is_already_downloaded (env.readOk i) st.db (video_id link)
      · rfl
      · exact absurd hx hskip
    have e : (phase1Step env k st i link).submitted
        = st.submitted ++ [⟨i, link, extract_username link, video_id link,
            is_photo link, (download_single_video env st.db i (i % k) link
              (extract_username link) (video_id link)).ok⟩] := by
      simp [phase1Step, hskip']
    rw [e]
    exact List.mem_append.mpr (Or.inl h)

theorem phase1Go_submitted_mono (env : Env) (k : Nat) :
    ∀ (links : List String) (i : Nat) (st : Phase1St) (r : SubmitRec),
      r ∈ st.submitted → r ∈ (phase1Go env k i st links).submitted := by
  intro links
  induction links with
  | nil => intro i st r h; exact h
  | cons link rest ih =>
      intro i st r h
      exact ih (i + 1) (phase1Step env k st i link) r
        (phase1Step_submitted_mono env k st i link r h)

theorem phase1Go_invs_session (env : Env) (k : Nat) :
    ∀ (links : List String) (i : Nat) (st : Phase1St),
      (∀ v ∈ st.invs, v.session = v.item % k) →
      ∀ v ∈ (phase1Go env k i st links).invs, v.session = v.item % k := by
  intro links
  induction links with
  | nil => intro i st h; exact h
  | cons link rest ih =>
      intro i st h
      refine ih (i + 1) (phase1Step env k st i link) ?_
      intro v hv
      by_cases hskip :
          is_already_downloaded (env.readOk i) st.db (video_id link) = true
      · have e : (phase1Step env k st i link).invs = st.invs := by
          simp [phase1Step, hskip]
        rw [e] at hv
        exact h v hv
      · have hskip' :
            is_already_downloaded (env.readOk i) st.db (video_id link) = false := by
          cases hx : is_already_downloaded (env.readOk i) st.db (video_id link)
          · rfl
          · exact absurd hx hskip
        have e : (phase1Step env k st i link).invs
            = st.invs ++ (download_single_video env st.db i (i % k) link
                (extract_username link) (video_id link)).invs := by
          simp [phase1Step, hskip']
        rw [e] at hv
        rcases List.mem_append.mp hv with h1 | h2
        · exact h v h1
        · obtain ⟨hitem, hsess⟩ := (download_single_video_shape env st.db i (i % k)
            link (extract_username link) (video_id link)).1 v h2
          rw [hsess, hitem]

theorem phase1Go_submitted_ok (env : Env) (k : Nat) :
    ∀ (links : List String) (i : Nat) (st : Phase1St),
      (∀ r ∈ st.submitted, r.ok = (env.attemptOk r.idx 1 || env.attemptOk r.idx 2)) →
      ∀ r ∈ (phase1Go env k i st links).submitted,
        r.ok = (env.attemptOk r.idx 1 || env.attemptOk r.idx 2) := by
  intro links
  induction links with
  | nil => intro i st h; exact h
  | cons link rest ih =>
      intro i st h
      refine ih (i + 1) (phase1Step env k st i link) ?_
      intro r hrm
      by_cases hskip :
          is_already_downloaded (env.readOk i) st.db (video_id link) = true
      · have e : (phase1Step env k st i link).submitted = st.submitted := by
          simp [phase1Step, hskip]
        rw [e] at hrm
        exact h r hrm
      · have hskip' :
            is_already_downloaded (env.readOk i) st.db (video_id link) = false := by
          cases hx : is_already_downloaded (env.readOk i) st.db (video_id link)
          · rfl
          · exact absurd hx hskip
        have e : (phase1Step env k st i link).submitted
            = st.submitted ++ [⟨i, link, extract_username link, video_id link,
                is_photo link, (download_single_video env st.db i (i % k) link
                  (extract_username link) (video_id link)).ok⟩] := by
          simp [phase1Step, hskip']
        rw [e] at hrm
        rcases List.mem_append.mp hrm with h1 | h2
        · exact h r h1
        · rcases List.mem_singleton.mp h2 with rfl
          obtain ⟨_, _, _, hok, _⟩ := download_single_video_shape env st.db i (i % k)
            link (extract_username link) (video_id link)
          simpa using hok

theorem phase1Go_writes_success (env : Env) (k : Nat) :
    ∀ (links : List String) (i : Nat) (st : Phase1St),
      (∀ w ∈ st.writes, w.status = "success") →
      ∀ w ∈ (phase1Go env k i st links).writes, w.status = "success" := by
  intro links
  induction links with
  | nil => intro i st h; exact h
  | cons link rest ih =>
      intro i st h
      refine ih (i + 1) (phase1Step env k st i link) ?_
      intro w hw
      by_cases hskip :
          is_already_downloaded (env.readOk i) st.db (video_id link) = true
      · have e : (phase1Step env k st i link).writes = st.writes := by
          simp [phase1Step, hskip]
        rw [e] at hw
        exact h w hw
      · have hskip' :
            is_already_downloaded (env.readOk i) st.db (video_id link) = false := by
          cases hx : is_already_downloaded (env.readOk i) st.db (video_id link)
          · rfl
          · exact absurd hx hskip
        have e : (phase1Step env k st i link).writes
            = st.writes ++ (download_single_video env st.db i (i % k) link
                (extract_username link) (video_id link)).writes := by
          simp [phase1Step, hskip']
        rw [e] at hw
        rcases List.mem_append.mp hw with h1 | h2
        · exact h w h1
        · exact ((download_single_video_shape env st.db i (i % k) link
            (extract_username link) (video_id link)).2.2.1 w h2).2

theorem phase1Step_invs_bound (env : Env) (k : Nat) (st : Phase1St) (i : Nat)
    (link : String) (h : ∀ v ∈ st.invs, v.item < i) :
    ∀ v ∈ (phase1Step env k st i link).invs, v.item < i + 1 := by
  intro v hv
  by_cases hskip :
      is_already_downloaded (env.readOk i) st.db (video_id link) = true
  · have e : (phase1Step env k st i link).invs = st.invs := by
      simp [phase1Step, hskip]
    rw [e] at hv
    have := h v hv
    omega
  · have hskip' :
        is_already_downloaded (env.readOk i) st.db (video_id link) = false := by
      cases hx : is_already_downloaded (env.readOk i) st.db (video_id link)
      · rfl
      · exact absurd hx hskip
    have e : (phase1Step env k st i link).invs
        = st.invs ++ (download_single_video env st.db i (i % k) link
            (extract_username link) (video_id link)).invs := by
      simp [phase1Step, hskip']
    rw [e] at hv
    rcases List.mem_append.mp hv with h1 | h2
    · have := h v h1
      omega
    · have := ((download_single_video_shape env st.db i (i % k) link
        (extract_username link) (video_id link)).1 v h2).1
      omega

theorem phase1Step_delays_bound (env : Env) (k : Nat) (st : Phase1St) (i : Nat)
    (link : String) (h : ∀ d ∈ st.delays, d.1 < i) :
    ∀ d ∈ (phase1Step env k st i link).delays, d.1 < i + 1 := by
  intro d hd
  by_cases hskip :
      is_already_downloaded (env.readOk i) st.db (video_id link) = true
  · have e : (phase1Step env k st i link).delays = st.delays := by
      simp [phase1Step, hskip]
    rw [e] at hd
    have := h d hd
    omega
  · have hskip' :
        is_already_downloaded (env.readOk i) st.db (video_id link) = false := by
      cases hx : is_already_downloaded (env.readOk i) st.db (video_id link)
      · rfl
      · exact absurd hx hskip
    have e : (phase1Step env k st i link).delays
        = st.delays ++ (download_single_video env st.db i (i % k) link
            (extract_username link) (video_id link)).delays := by
      simp [phase1Step, hskip']
    rw [e] at hd
    rcases List.mem_append.mp hd with h1 | h2
    · have := h d h1
      omega
    · have := (download_single_video_shape env st.db i (i % k) link
        (extract_username link) (video_id link)).2.1 d h2
      omega

theorem phase1Step_db_lookup (env : Env) (k : Nat) (st : Phase1St) (i : Nat)
    (link : String) (id : String) (r : DLRecord) (hr : r.status = "success")
    (hread : env.readOk i = true) (hdb : lookupRec st.db id = some r) :
    lookupRec (phase1Step env k st i link).db id = some r := by
  by_cases hskip :
      is_already_downloaded (env.readOk i) st.db (video_id link) = true
  · have e : (phase1Step env k st i link).db = st.db := by
      simp [phase1Step, hskip]
    rw [e]
    exact hdb
  · have hskip' :
        is_already_downloaded (env.readOk i) st.db (video_id link) = false := by
      cases hx : is_already_downloaded (env.readOk i) st.db (video_id link)
      · rfl
      · exact absurd hx hskip
    have hne : video_id link ≠ id := by
      intro heq
      rw [hread, heq,
        is_already_downloaded_of_lookup st.db id r hdb hr] at hskip'
      simp at hskip'
    have e : (phase1Step env k st i link).db
        = (download_single_video env st.db i (i % k) link
            (extract_username link) (video_id link)).db := by
      simp [phase1Step, hskip']
    rw [e]
    obtain ⟨_, _, _, _, hdbe⟩ := download_single_video_shape env st.db i (i % k)
      link (extract_username link) (video_id link)
    rw [hdbe]
    by_cases hcase : (env.attemptOk i 1 || env.attemptOk i 2) = true
    · rw [if_pos hcase,
        lookupRec_mark_ne (env.markSuccessOk i) st.db (video_id link) id
          (extract_username link) link "success" "" hne]
      exact hdb
    · rw [if_neg hcase]
      exact hdb

/-- Per-item behaviour of the submission loop for an item whose protocol
fails both attempts: it is either skipped, or it runs exactly two attempts on
session `(i0+q) % k` with the single clamped backoff delay between them, ends
`ran false`, and its submit record lands in `submitted`. -/
theorem phase1Go_item_failed (env : Env) (k : Nat) :
    ∀ (links : List String) (q i0 : Nat) (st : Phase1St) (link : String),
      links.get? q = some link →
      env.attemptOk (i0 + q) 1 = false →
      env.attemptOk (i0 + q) 2 = false →
      (∀ v ∈ st.invs, v.item < i0) →
      (∀ d ∈ st.delays, d.1 < i0) →
      ((phase1Go env k i0 st links).phases.get? (st.phases.length + q)
          = some ItemPhase.skipped) ∨
      (((phase1Go env k i0 st links).phases.get? (st.phases.length + q)
          = some (ItemPhase.ran false)) ∧
        ((phase1Go env k i0 st links).invs.filter (fun v => v.item == i0 + q)
          = [⟨i0 + q, 1, (i0 + q) % k⟩, ⟨i0 + q, 2, (i0 + q) % k⟩]) ∧
        ((phase1Go env k i0 st links).delays.filter (fun d => d.1 == i0 + q)
          = [(i0 + q, wait_exponential 1 2 5 1)]) ∧
        ((⟨i0 + q, link, extract_username link, video_id link, is_photo link,
            false⟩ : SubmitRec) ∈ (phase1Go env k i0 st links).submitted)) := by
  intro links
  induction links with
  | nil =>
      intro q i0 st link hq
      exact absurd hq (by simp)
  | cons l₂ rest ih =>
      intro q i0 st link hq ha1 ha2 hbi hbd
      cases q with
      | zero =>
          have hl : l₂ = link := by simpa using hq
          subst hl
          simp only [Nat.add_zero] at ha1 ha2 ⊢
          have hgo : phase1Go env k i0 st (l₂ :: rest)
              = phase1Go env k (i0 + 1) (phase1Step env k st i0 l₂) rest := rfl
          have hlen : st.phases.length < (phase1Step env k st i0 l₂).phases.length := by
            rw [phase1Step_phases_len]
            omega
          obtain ⟨u1, u2, u3, u4⟩ := phase1Go_untouched env k rest (i0 + 1)
            (phase1Step env k st i0 l₂) i0 st.phases.length (by omega) hlen
          by_cases hskip :
              is_already_downloaded (env.readOk i0) st.db (video_id l₂) = true
          · left
            have e4 : (phase1Step env k st i0 l₂).phases
                = st.phases ++ [ItemPhase.skipped] := by
              simp [phase1Step, hskip]
            rw [hgo, u4, e4]
            exact List.get?_concat_length _ _
          · right
            have hskip' :
                is_already_downloaded (env.readOk i0) st.db (video_id l₂) = false := by
              cases hx : is_already_downloaded (env.readOk i0) st.db (video_id l₂)
              · rfl
              · exact absurd hx hskip
            have hd := download_single_video_fail env st.db i0 (i0 % k) l₂
              (extract_username l₂) (video_id l₂) ha1 ha2
            have e1 : (phase1Step env k st i0 l₂).invs
                = st.invs ++ [⟨i0, 1, i0 % k⟩, ⟨i0, 2, i0 % k⟩] := by
              simp [phase1Step, hskip', hd]
            have e2 : (phase1Step env k st i0 l₂).delays
                = st.delays ++ [(i0, wait_exponential 1 2 5 1)] := by
              simp [phase1Step, hskip', hd]
            have e3 : (phase1Step env k st i0 l₂).submitted
                = st.submitted ++ [⟨i0, l₂, extract_username l₂, video_id l₂,
                    is_photo l₂, false⟩] := by
              simp [phase1Step, hskip', hd]
            have e4 : (phase1Step env k st i0 l₂).phases
                = st.phases ++ [ItemPhase.ran false] := by
              simp [phase1Step, hskip', hd]
            refine ⟨?_, ?_, ?_, ?_⟩
            · rw [hgo, u4, e4]
              exact List.get?_concat_length _ _
            · rw [hgo, u1, e1, List.filter_append]
              have hnil : st.invs.filter (fun v => v.item == i0) = [] :=
                filter_eq_nil_of_all _ _ (fun v hv =>
                  nat_beq_false (Nat.ne_of_lt (hbi v hv)))
              rw [hnil]
              simp
            · rw [hgo, u2, e2, List.filter_append]
              have hnil : st.delays.filter (fun d => d.1 == i0) = [] :=
                filter_eq_nil_of_all _ _ (fun d hdm =>
                  nat_beq_false (Nat.ne_of_lt (hbd d hdm)))
              rw [hnil]
              simp
            · rw [hgo]
              refine phase1Go_submitted_mono env k rest (i0 + 1)
                (phase1Step env k st i0 l₂) _ ?_
              rw [e3]
              exact List.mem_append.mpr (Or.inr (by simp))
      | succ q₂ =>
          have hq' : rest.get? q₂ = some link := by simpa using hq
          have ha1' : env.attemptOk ((i0 + 1) + q₂) 1 = false := by
            have : i0 + (q₂ + 1) = (i0 + 1) + q₂ := by omega
            rw [← this]
            exact ha1
          have ha2' : env.attemptOk ((i0 + 1) + q₂) 2 = false := by
            have : i0 + (q₂ + 1) = (i0 + 1) + q₂ := by omega
            rw [← this]
            exact ha2
          have hgo : phase1Go env k i0 st (l₂ :: rest)
              = phase1Go env k (i0 + 1) (phase1Step env k st i0 l₂) rest := rfl
          have hidx : st.phases.length + (q₂ + 1)
              = (phase1Step env k st i0 l₂).phases.length + q₂ := by
            rw [phase1Step_phases_len]
            omega
          have harith : i0 + (q₂ + 1) = (i0 + 1) + q₂ := by omega
          rw [hgo, hidx, harith]
          exact ih q₂ (i0 + 1) (phase1Step env k st i0 l₂) link hq' ha1' ha2'
            (phase1Step_invs_bound env k st i0 l₂ hbi)
            (phase1Step_delays_bound env k st i0 l₂ hbd)

/-- Per-item behaviour of the submission loop for an item whose id is
recorded as success in the ledger at batch start, when all ledger reads
succeed: the item is skipped and no protocol invocation carries its index. -/
theorem phase1Go_skip_item (env : Env) (k : Nat) (id : String) (r : DLRecord)
    (hr : r.status = "success") (hread : ∀ j, env.readOk j = true) :
    ∀ (links : List String) (q i0 : Nat) (st : Phase1St) (link : String),
      links.get? q = some link → video_id link = id →
      lookupRec st.db id = some r →
      (∀ v ∈ st.invs, v.item < i0) →
      ((phase1Go env k i0 st links).phases.get? (st.phases.length + q)
          = some ItemPhase.skipped) ∧
      ((phase1Go env k i0 st links).invs.filter (fun v => v.item == i0 + q) = []) := by
  intro links
  induction links with
  | nil =>
      intro q i0 st link hq
      exact absurd hq (by simp)
  | cons l₂ rest ih =>
      intro q i0 st link hq hvid hdb hbi
      cases q with
      | zero =>
          have hl : l₂ = link := by simpa using hq
          subst hl
          simp only [Nat.add_zero]
          have hskip :
              is_already_downloaded (env.readOk i0) st.db (video_id l₂) = true := by
            rw [hread i0, hvid]
            exact is_already_downloaded_of_lookup st.db id r hdb hr
          have e1 : (phase1Step env k st i0 l₂).invs = st.invs := by
            simp [phase1Step, hskip]
          have e4 : (phase1Step env k st i0 l₂).phases
              = st.phases ++ [ItemPhase.skipped] := by
            simp [phase1Step, hskip]
          have hgo : phase1Go env k i0 st (l₂ :: rest)
              = phase1Go env k (i0 + 1) (phase1Step env k st i0 l₂) rest := rfl
          have hlen : st.phases.length < (phase1Step env k st i0 l₂).phases.length := by
            rw [phase1Step_phases_len]
            omega
          obtain ⟨u1, _, _, u4⟩ := phase1Go_untouched env k rest (i0 + 1)
            (phase1Step env k st i0 l₂) i0 st.phases.length (by omega) hlen
          constructor
          · rw [hgo, u4, e4]
            exact List.get?_concat_length _ _
          · rw [hgo, u1, e1]
            exact filter_eq_nil_of_all _ _ (fun v hv =>
              nat_beq_false (Nat.ne_of_lt (hbi v hv)))
      | succ q₂ =>
          have hq' : rest.get? q₂ = some link := by simpa using hq
          have hgo : phase1Go env k i0 st (l₂ :: rest)
              = phase1Go env k (i0 + 1) (phase1Step env k st i0 l₂) rest := rfl
          have hidx : st.phases.length + (q₂ + 1)
              = (phase1Step env k st i0 l₂).phases.length + q₂ := by
            rw [phase1Step_phases_len]
            omega
          have harith : i0 + (q₂ + 1) = (i0 + 1) + q₂ := by omega
          rw [hgo, hidx, harith]
          exact ih q₂ (i0 + 1) (phase1Step env k st i0 l₂) link hq' hvid
            (phase1Step_db_lookup env k st i0 l₂ id r hr (hread i0) hdb)
            (phase1Step_invs_bound env k st i0 l₂ hbi)

theorem countP_add_countP_not {α : Type} (p : α → Bool) (l : List α) :
    l.countP p + l.countP (fun a => !(p a)) = l.length := by
  induction l with
  | nil => rfl
  | cons a t ih => cases ha : p a <;> simp [List.countP_cons, ha] <;> omega

/-- The normal branch of `download_videos`: full pool creation succeeded and
the pool is non-empty. -/
theorem download_videos_normal (env : Env) (k : Nat) (db0 : Ledger)
    (links : List String) (chatId : Option Nat) (completed : List SubmitRec)
    (hcf : firstCreateFail env k = none) (hk0 : ¬ k = 0) :
    download_videos env k db0 links chatId completed =
      { returned := true,
        success := (completed.foldl (phase2Step env chatId links.length)
          ⟨(phase1 env k db0 links).skipped, 0, [],
            (phase1 env k db0 links).db, [], []⟩).success,
        fail := (completed.foldl (phase2Step env chatId links.length)
          ⟨(phase1 env k db0 links).skipped, 0, [],
            (phase1 env k db0 links).db, [], []⟩).fail,
        failedLinks := (completed.foldl (phase2Step env chatId links.length)
          ⟨(phase1 env k db0 links).skipped, 0, [],
            (phase1 env k db0 links).db, [], []⟩).failedLinks,
        db := (completed.foldl (phase2Step env chatId links.length)
          ⟨(phase1 env k db0 links).skipped, 0, [],
            (phase1 env k db0 links).db, [], []⟩).db,
        notifs := (if chatId.isSome then [Notif.start links.length] else []) ++
          (completed.foldl (phase2Step env chatId links.length)
            ⟨(phase1 env k db0 links).skipped, 0, [],
              (phase1 env k db0 links).db, [], []⟩).notifs ++
          (if chatId.isSome then
            [Notif.finalSummary
              (completed.foldl (phase2Step env chatId links.length)
                ⟨(phase1 env k db0 links).skipped, 0, [],
                  (phase1 env k db0 links).db, [], []⟩).success
              (completed.foldl (phase2Step env chatId links.length)
                ⟨(phase1 env k db0 links).skipped, 0, [],
                  (phase1 env k db0 links).db, [], []⟩).fail]
          else []),
        invs := (phase1 env k db0 links).invs,
        delays := (phase1 env k db0 links).delays,
        writes := (phase1 env k db0 links).writes ++
          (completed.foldl (phase2Step env chatId links.length)
            ⟨(phase1 env k db0 links).skipped, 0, [],
              (phase1 env k db0 links).db, [], []⟩).writes,
        phases := (phase1 env k db0 links).phases,
        created := k, closed := List.range k } := by
  simp [download_videos, hcf, hk0]

/-- C1: for every input list (including the empty one), when
`download_videos` returns, the aggregates satisfy
`succeeded + failed = total`, and exactly one final summary notification
carrying those counts is emitted iff a chat id was supplied — whatever the
protocol, ledger-storage and quit outcomes during the batch. -/
theorem download_videos_aggregates (env : Env) (k : Nat) (db0 : Ledger)
    (links : List String) (chatId : Option Nat) (completed : List SubmitRec)
    (out : BatchOut)
    (hk : 0 < k) (hc : ∀ i, i < k → env.createOk i = true)
    (hperm : completed.Perm (phase1 env k db0 links).submitted)
    (hout : out = download_videos env k db0 links chatId completed) :
    out.returned = true ∧
    out.success + out.fail = links.length ∧
    out.notifs.filter isFinalSummary =
      (if chatId.isSome then [Notif.finalSummary out.success out.fail] else []) ∧
    (links = [] → out.success = 0 ∧ out.fail = 0) := by
  have hcf : firstCreateFail env k = none := by
    unfold firstCreateFail
    rw [List.find?_eq_none]
    intro x hx
    rw [hc x (List.mem_range.mp hx)]
    simp
  have hk0 : ¬ k = 0 := by omega
  subst hout
  rw [download_videos_normal env k db0 links chatId completed hcf hk0]
  obtain ⟨s1, s2, s3⟩ := phase2_foldl_spec env chatId links.length completed
    ⟨(phase1 env k db0 links).skipped, 0, [], (phase1 env k db0 links).db, [], []⟩
  have hph : phase1 env k db0 links
      = phase1Go env k 0 ⟨db0, 0, [], [], [], [], []⟩ links := rfl
  obtain ⟨c1, _, _⟩ := phase1Go_counts env k links 0 ⟨db0, 0, [], [], [], [], []⟩
  rw [← hph] at c1
  dsimp only at s1 s2 c1
  have hco := hperm.countP_eq (fun r => r.ok)
  have hcn := hperm.countP_eq (fun r => !r.ok)
  have htot := countP_add_countP_not (fun r => r.ok) (phase1 env k db0 links).submitted
  refine ⟨rfl, ?_, ?_, ?_⟩
  · show (completed.foldl (phase2Step env chatId links.length)
        ⟨(phase1 env k db0 links).skipped, 0, [],
          (phase1 env k db0 links).db, [], []⟩).success
      + (completed.foldl (phase2Step env chatId links.length)
        ⟨(phase1 env k db0 links).skipped, 0, [],
          (phase1 env k db0 links).db, [], []⟩).fail = links.length
    rw [s1, s2, hco, hcn]
    simp only [List.length_nil] at c1
    omega
  · cases hch : chatId.isSome <;>
      simp [hch, List.filter_append, s3, isFinalSummary]
  · intro hnil
    subst hnil
    have hsub : (phase1 env k db0 ([] : List String)).submitted = [] := rfl
    rw [hsub] at hperm
    have hcomp : completed = [] := List.Perm.eq_nil hperm
    subst hcomp
    exact ⟨rfl, rfl⟩

theorem firstCreateFail_none (env : Env) (k : Nat)
    (hc : ∀ i, i < k → env.createOk i = true) : firstCreateFail env k = none := by
  unfold firstCreateFail
  rw [List.find?_eq_none]
  intro x hx
  rw [hc x (List.mem_range.mp hx)]
  simp

/-- C5: an item whose protocol fails both attempts is attempted exactly twice,
both attempts on its fixed session `i % k`, with the single clamped
exponential-backoff delay (2, within [2,5]) between them; only then does the
orchestrator count it failed, append its link to `failed_links` and record
status failed under its id — and no item with a succeeding attempt ever gets
a failed record. -/
theorem download_videos_retry_bound (env : Env) (k : Nat) (db0 : Ledger)
    (links : List String) (chatId : Option Nat) (completed : List SubmitRec)
    (out : BatchOut) (i : Nat) (link : String)
    (hk : 0 < k) (hc : ∀ j, j < k → env.createOk j = true)
    (hperm : completed.Perm (phase1 env k db0 links).submitted)
    (hlink : links.get? i = some link)
    (ha1 : env.attemptOk i 1 = false) (ha2 : env.attemptOk i 2 = false)
    (hout : out = download_videos env k db0 links chatId completed)
    (hnotskip : out.phases.get? i ≠ some ItemPhase.skipped) :
    out.phases.get? i = some (ItemPhase.ran false) ∧
    out.invs.filter (fun v => v.item == i) = [⟨i, 1, i % k⟩, ⟨i, 2, i % k⟩] ∧
    out.delays.filter (fun d => d.1 == i) = [(i, wait_exponential 1 2 5 1)] ∧
    (2 ≤ wait_exponential 1 2 5 1 ∧ wait_exponential 1 2 5 1 ≤ 5) ∧
    link ∈ out.failedLinks ∧
    (⟨i, video_id link, extract_username link, link, "failed"⟩ : WriteRec)
      ∈ out.writes ∧
    out.fail = out.phases.countP (fun ph => !(succPhase ph)) ∧
    (∀ j, (env.attemptOk j 1 = true ∨ env.attemptOk j 2 = true) →
      ∀ w ∈ out.writes, w.item = j → w.status ≠ "failed") := by
  have hcf : firstCreateFail env k = none := firstCreateFail_none env k hc
  have hk0 : ¬ k = 0 := by omega
  subst hout
  rw [download_videos_normal env k db0 links chatId completed hcf hk0] at hnotskip ⊢
  have hbi : ∀ v ∈ (⟨db0, 0, [], [], [], [], []⟩ : Phase1St).invs, v.item < 0 := by
    intro v hv
    simp at hv
  have hbd : ∀ d ∈ (⟨db0, 0, [], [], [], [], []⟩ : Phase1St).delays, d.1 < 0 := by
    intro d hd
    simp at hd
  have ha1' : env.attemptOk (0 + i) 1 = false := by simpa using ha1
  have ha2' : env.attemptOk (0 + i) 2 = false := by simpa using ha2
  have hitem := phase1Go_item_failed env k links i 0 ⟨db0, 0, [], [], [], [], []⟩
    link hlink ha1' ha2' hbi hbd
  have hph : phase1 env k db0 links
      = phase1Go env k 0 ⟨db0, 0, [], [], [], [], []⟩ links := rfl
  rw [← hph] at hitem
  simp only [Nat.zero_add, List.length_nil] at hitem
  dsimp only at hnotskip
  rcases hitem with hsk | ⟨hph1, hinv, hdel, hsub⟩
  · exact absurd hsk hnotskip
  · have hrec : (⟨i, link, extract_username link, video_id link, is_photo link,
        false⟩ : SubmitRec) ∈ completed := hperm.mem_iff.mpr hsub
    obtain ⟨hm1, hm2⟩ := phase2_foldl_mem env chatId links.length completed
      ⟨(phase1 env k db0 links).skipped, 0, [], (phase1 env k db0 links).db, [], []⟩
      ⟨i, link, extract_username link, video_id link, is_photo link, false⟩
      hrec rfl
    dsimp only at hm1 hm2
    obtain ⟨_, s2, _⟩ := phase2_foldl_spec env chatId links.length completed
      ⟨(phase1 env k db0 links).skipped, 0, [], (phase1 env k db0 links).db, [], []⟩
    obtain ⟨c1, c2, c3⟩ := phase1Go_counts env k links 0 ⟨db0, 0, [], [], [], [], []⟩
    rw [← hph] at c1 c2 c3
    dsimp only at s2 c1 c2 c3
    simp only [List.countP_nil, List.length_nil] at c1 c2 c3
    have hcn := hperm.countP_eq (fun r => !r.ok)
    have htot := countP_add_countP_not (fun r => r.ok)
      (phase1 env k db0 links).submitted
    have htot2 := countP_add_countP_not succPhase (phase1 env k db0 links).phases
    refine ⟨hph1, hinv, hdel, by decide, ?_, ?_, ?_, ?_⟩
    · exact hm1
    · exact List.mem_append.mpr (Or.inr hm2)
    · dsimp only
      rw [s2, hcn]
      omega
    · intro j hj w hw hwj
      dsimp only at hw
      rcases List.mem_append.mp hw with hw1 | hw2
      · have hws := phase1Go_writes_success env k links 0 ⟨db0, 0, [], [], [], [], []⟩
          (by intro w2 hw2x; simp at hw2x) w hw1
        rw [hws]
        decide
      · rcases phase2_writes_char env chatId links.length completed _ w hw2 with
          hin | ⟨rr, hr1, hr2, hr3⟩
        · simp at hin
        · have hok := phase1Go_submitted_ok env k links 0 ⟨db0, 0, [], [], [], [], []⟩
            (by intro r2 h2; simp at h2) rr (hperm.mem_iff.mp hr1)
          subst hr3
          dsimp only at hwj
          rw [hwj] at hok
          have hT : rr.ok = true := by
            rw [hok]
            rcases hj with hj1 | hj2
            · rw [hj1]
              simp
            · rw [hj2]
              simp
          rw [hr2] at hT
          simp at hT

/-- C6: an item whose id is recorded as success in the ledger at batch start
is skipped: it is counted as succeeded (its phase contributes to the success
count, `succPhase ItemPhase.skipped = true`) and no protocol invocation
carries its index — provided ledger reads succeed during the batch. -/
theorem download_videos_idempotent_skip (env : Env) (k : Nat) (db0 : Ledger)
    (links : List String) (chatId : Option Nat) (completed : List SubmitRec)
    (out : BatchOut) (i : Nat) (link : String) (id : String) (r : DLRecord)
    (hk : 0 < k) (hc : ∀ j, j < k → env.createOk j = true)
    (hperm : completed.Perm (phase1 env k db0 links).submitted)
    (hread : ∀ j, env.readOk j = true)
    (hdb : lookupRec db0 id = some r) (hst : r.status = "success")
    (hlink : links.get? i = some link) (hvid : video_id link = id)
    (hout : out = download_videos env k db0 links chatId completed) :
    out.phases.get? i = some ItemPhase.skipped ∧
    (∀ v ∈ out.invs, v.item ≠ i) ∧
    out.success = out.phases.countP succPhase ∧
    succPhase ItemPhase.skipped = true := by
  have hcf : firstCreateFail env k = none := firstCreateFail_none env k hc
  have hk0 : ¬ k = 0 := by omega
  subst hout
  rw [download_videos_normal env k db0 links chatId completed hcf hk0]
  have hph : phase1 env k db0 links
      = phase1Go env k 0 ⟨db0, 0, [], [], [], [], []⟩ links := rfl
  have hskipitem := phase1Go_skip_item env k id r hst hread links i 0
    ⟨db0, 0, [], [], [], [], []⟩ link hlink hvid hdb (by intro v hv; simp at hv)
  rw [← hph] at hskipitem
  simp only [Nat.zero_add, List.length_nil] at hskipitem
  obtain ⟨hph1, hinv⟩ := hskipitem
  refine ⟨hph1, ?_, ?_, rfl⟩
  · intro v hv hvi
    dsimp only at hv
    have hmem : v ∈ (phase1 env k db0 links).invs.filter (fun v => v.item == i) :=
      List.mem_filter.mpr ⟨hv, by simp [hvi]⟩
    rw [hinv] at hmem
    simp at hmem
  · obtain ⟨s1, _, _⟩ := phase2_foldl_spec env chatId links.length completed
      ⟨(phase1 env k db0 links).skipped, 0, [], (phase1 env k db0 links).db, [], []⟩
    obtain ⟨c1, c2, c3⟩ := phase1Go_counts env k links 0 ⟨db0, 0, [], [], [], [], []⟩
    rw [← hph] at c1 c2 c3
    dsimp only at s1 c1 c2 c3
    simp only [List.countP_nil, List.length_nil] at c1 c2 c3
    have hco := hperm.countP_eq (fun r => r.ok)
    dsimp only
    rw [s1, hco]
    omega

/-- C7: every protocol invocation of the batch runs on session
`item index % k`, so all retry attempts of one item run on the same session,
fixed at submission time. -/
theorem download_videos_assignment (env : Env) (k : Nat) (db0 : Ledger)
    (links : List String) (chatId : Option Nat) (completed : List SubmitRec)
    (out : BatchOut)
    (hout : out = download_videos env k db0 links chatId completed) :
    (∀ v ∈ out.invs, v.session = v.item % k) ∧
    (∀ v ∈ out.invs, ∀ w ∈ out.invs, v.item = w.item → v.session = w.session) := by
  subst hout
  have hmain : ∀ v ∈ (download_videos env k db0 links chatId completed).invs,
      v.session = v.item % k := by
    cases hcf : firstCreateFail env k with
    | some m =>
        intro v hv
        simp [download_videos, hcf] at hv
    | none =>
        by_cases hk0 : k = 0
        · subst hk0
          intro v hv
          simp [download_videos, hcf] at hv
        · rw [download_videos_normal env k db0 links chatId completed hcf hk0]
          intro v hv
          dsimp only at hv
          exact phase1Go_invs_session env k links 0 ⟨db0, 0, [], [], [], [], []⟩
            (by intro v2 hv2; simp at hv2) v hv
  exact ⟨hmain, fun v hv w hw heq => by rw [hmain v hv, hmain w hw, heq]⟩

/-- Environment where creating driver 1 fails and everything else succeeds. -/
def envPartialPool : Env :=
  ⟨fun i => i == 0, fun _ _ => true, fun _ => true, fun _ => true,
    fun _ => true, fun _ => true⟩

/-- Environment where everything succeeds except every `driver.quit()`. -/
def envQuitFail : Env :=
  ⟨fun _ => true, fun _ _ => true, fun _ => true, fun _ => true,
    fun _ => true, fun _ => false⟩

/-- Environment where every external call succeeds. -/
def envAllOk : Env :=
  ⟨fun _ => true, fun _ _ => true, fun _ => true, fun _ => true,
    fun _ => true, fun _ => true⟩

/-- Environment where both protocol attempts of every item fail. -/
def envAttemptFail : Env :=
  ⟨fun _ => true, fun _ _ => false, fun _ => true, fun _ => true,
    fun _ => true, fun _ => true⟩

/-- C2 (code bug): with `max_workers = 2`, if creating the second driver
fails, the already-created first driver is never closed — `drivers` is
unbound in the `finally` block, which raises `NameError`, so no final
notification is sent and the call raises.  By contrast, with a fully created
pool every driver gets a close attempt even when every `quit()` fails. -/
theorem download_videos_pool_close_bug :
    ((download_videos envPartialPool 2 [] ["https://tiktok.com/@u/video/1"]
        (some 1) []).created = 1 ∧
      (download_videos envPartialPool 2 [] ["https://tiktok.com/@u/video/1"]
        (some 1) []).closed = [] ∧
      (download_videos envPartialPool 2 [] ["https://tiktok.com/@u/video/1"]
        (some 1) []).returned = false ∧
      (download_videos envPartialPool 2 [] ["https://tiktok.com/@u/video/1"]
        (some 1) []).notifs.filter isFinalSummary = []) ∧
    (download_videos envQuitFail 2 [] ["https://tiktok.com/@u/video/1"] (some 1)
      (phase1 envQuitFail 2 [] ["https://tiktok.com/@u/video/1"]).submitted).closed
      = List.range 2 := by
  refine ⟨⟨?_, ?_, ?_, ?_⟩, ?_⟩ <;> decide

/-- C1 witness: a one-link batch with a chat id set. -/
theorem download_videos_aggregates_witness :
    (download_videos envAllOk 1 [] ["https://tiktok.com/@u/video/9"] (some 1)
      (phase1 envAllOk 1 [] ["https://tiktok.com/@u/video/9"]).submitted).returned
        = true ∧
    (download_videos envAllOk 1 [] ["https://tiktok.com/@u/video/9"] (some 1)
      (phase1 envAllOk 1 [] ["https://tiktok.com/@u/video/9"]).submitted).success
      + (download_videos envAllOk 1 [] ["https://tiktok.com/@u/video/9"] (some 1)
        (phase1 envAllOk 1 [] ["https://tiktok.com/@u/video/9"]).submitted).fail
        = 1 ∧
    (download_videos envAllOk 1 [] ["https://tiktok.com/@u/video/9"] (some 1)
        (phase1 envAllOk 1 [] ["https://tiktok.com/@u/video/9"]).submitted).notifs.filter
      isFinalSummary
      = [Notif.finalSummary
          (download_videos envAllOk 1 [] ["https://tiktok.com/@u/video/9"] (some 1)
            (phase1 envAllOk 1 [] ["https://tiktok.com/@u/video/9"]).submitted).success
          (download_videos envAllOk 1 [] ["https://tiktok.com/@u/video/9"] (some 1)
            (phase1 envAllOk 1 [] ["https://tiktok.com/@u/video/9"]).submitted).fail] := by
  have h := download_videos_aggregates envAllOk 1 [] ["https://tiktok.com/@u/video/9"]
    (some 1) (phase1 envAllOk 1 [] ["https://tiktok.com/@u/video/9"]).submitted _
    (by omega) (fun i _ => rfl) (List.Perm.refl _) rfl
  exact ⟨h.1, h.2.1, by simpa using h.2.2.1⟩

/-- C5 witness: a one-link batch whose single item fails both attempts. -/
theorem download_videos_retry_bound_witness :
    (download_videos envAttemptFail 1 [] ["https://tiktok.com/@u/video/9"] none
      (phase1 envAttemptFail 1 [] ["https://tiktok.com/@u/video/9"]).submitted).invs.filter
        (fun v => v.item == 0) = [⟨0, 1, 0 % 1⟩, ⟨0, 2, 0 % 1⟩] ∧
    "https://tiktok.com/@u/video/9" ∈
      (download_videos envAttemptFail 1 [] ["https://tiktok.com/@u/video/9"] none
        (phase1 envAttemptFail 1 [] ["https://tiktok.com/@u/video/9"]).submitted).failedLinks := by
  have h := download_videos_retry_bound envAttemptFail 1 []
    ["https://tiktok.com/@u/video/9"] none
    (phase1 envAttemptFail 1 [] ["https://tiktok.com/@u/video/9"]).submitted _
    0 "https://tiktok.com/@u/video/9" (by omega) (fun j _ => rfl)
    (List.Perm.refl _) rfl rfl rfl rfl (by decide)
  exact ⟨h.2.1, h.2.2.2.2.1⟩

/-- C6 witness: the single link's id `9` is already recorded as success. -/
theorem download_videos_idempotent_skip_witness :
    (download_videos envAllOk 1 [("9", ⟨"u", "x", "success", ""⟩)]
      ["https://tiktok.com/@u/video/9"] none
      (phase1 envAllOk 1 [("9", ⟨"u", "x", "success", ""⟩)]
        ["https://tiktok.com/@u/video/9"]).submitted).phases.get? 0
        = some ItemPhase.skipped ∧
    (download_videos envAllOk 1 [("9", ⟨"u", "x", "success", ""⟩)]
      ["https://tiktok.com/@u/video/9"] none
      (phase1 envAllOk 1 [("9", ⟨"u", "x", "success", ""⟩)]
        ["https://tiktok.com/@u/video/9"]).submitted).success
      = (download_videos envAllOk 1 [("9", ⟨"u", "x", "success", ""⟩)]
          ["https://tiktok.com/@u/video/9"] none
          (phase1 envAllOk 1 [("9", ⟨"u", "x", "success", ""⟩)]
            ["https://tiktok.com/@u/video/9"]).submitted).phases.countP succPhase := by
  have h := download_videos_idempotent_skip envAllOk 1
    [("9", ⟨"u", "x", "success", ""⟩)] ["https://tiktok.com/@u/video/9"] none
    (phase1 envAllOk 1 [("9", ⟨"u", "x", "success", ""⟩)]
      ["https://tiktok.com/@u/video/9"]).submitted _
    0 "https://tiktok.com/@u/video/9" "9" ⟨"u", "x", "success", ""⟩
    (by omega) (fun j _ => rfl) (List.Perm.refl _) (fun j => rfl)
    (by decide) rfl rfl (by decide) rfl
  exact ⟨h.1, h.2.2.1⟩

/-- C7 witness: in a three-link batch on a pool of 2, the invocation of the
item at index 2 runs on session `2 % 2 = 0`. -/
theorem download_videos_assignment_witness :
    (⟨2, 1, 0⟩ : Inv) ∈ (download_videos envAllOk 2 [] ["a", "b", "c"] none
      (phase1 envAllOk 2 [] ["a", "b", "c"]).submitted).invs ∧
    (⟨2, 1, 0⟩ : Inv).session = (⟨2, 1, 0⟩ : Inv).item % 2 := by
  refine ⟨by decide, ?_⟩
  exact (download_videos_assignment envAllOk 2 [] ["a", "b", "c"] none
    (phase1 envAllOk 2 [] ["a", "b", "c"]).submitted _ rfl).1 ⟨2, 1, 0⟩ (by decide)

end Bot
